import Mathlib

/-!
Shallow embedding of the typescript-graph library (src/graph.ts,
src/directedGraph.ts as embedded in src/directedAcyclicGraph.ts, and
src/directedAcyclicGraph.ts) together with proofs about the embedded
operations.

Conventions of the embedding:
* A JavaScript `Map<string, T>` is an insertion-ordered association list
  `List (String × T)`; `Map.set` on an existing key updates the value in
  place, on a fresh key it appends at the end.
* An adjacency-matrix cell is `Option Bool`: `none` is a JavaScript array
  hole (the rows created by `new Array(n + 1)` in `insert` are sparse and
  are never filled with zeroes), `some false` is a stored `0`, `some true`
  is a stored `1`.  Every read in the library (`=== 1`, `> 0`, `< 1`
  inside `reduce`/`forEach`, which skip holes) treats `none` and
  `some false` alike, but `Array.prototype.filter` in `subAdj` skips holes
  while keeping stored zeroes, so the distinction is observable there.
* JavaScript exceptions are `Except`; since the methods mutate `this`,
  an error is paired with the post-state of the receiver at throw time.
* The recursive searches (`canReachFrom`, the `recur` closure of
  `getSubGraphStartingFrom`) and the Kahn worklist loops have no
  structural termination argument in the source, so they are embedded
  with an explicit fuel parameter; `none` means the computation did not
  finish within the given fuel (for every fuel means divergence).
-/

set_option autoImplicit false

namespace TsGraph

variable {T : Type} {α : Type} {β : Type}

/-- An adjacency cell: `none` is an array hole (and also the `undefined`
obtained when reading past the end of a row), `some false` a stored 0,
`some true` a stored 1. -/
abbrev Cell := Option Bool

/-- The test `cell === 1` (equivalently `cell > 0`); holes and zeroes fail it. -/
def cellB (c : Cell) : Bool := c == some true

/-- JavaScript `Array.prototype.indexOf`: index of the first occurrence, `-1`
when absent. -/
def jsIndexOf (l : List String) (k : String) : Int :=
  match l.findIdx? (fun x => x == k) with
  | some i => (i : Int)
  | none => -1

/-- Reading `l[i]` with a JavaScript (possibly negative) index: `undefined`
(`none`) for a negative or out-of-range index. -/
def jsGetInt (l : List α) (i : Int) : Option α :=
  if i < 0 then none else l[i.toNat]?

/-- `Map.prototype.has`. -/
def jsMapHas (m : List (String × T)) (k : String) : Bool :=
  m.any (fun p => p.1 == k)

/-- `Map.prototype.get` (`none` is `undefined`). -/
def jsMapGet (m : List (String × T)) (k : String) : Option T :=
  (m.find? (fun p => p.1 == k)).map (fun p => p.2)

/-- `Map.prototype.set`: update the first binding of the key in place,
append a fresh binding at the end otherwise. -/
def jsMapSet (m : List (String × T)) (k : String) (v : T) : List (String × T) :=
  match m with
  | [] => [(k, v)]
  | (k0, v0) :: rest =>
    if k0 == k then (k0, v) :: rest else (k0, v0) :: jsMapSet rest k v

/-- Write `m[i][j] = v` for a possibly negative row index.  When the row
index or the column index is out of range the write is a no-op in the
embedding; the library only performs it with indices of existing nodes
(where JavaScript would otherwise throw or extend the row). -/
def matSet (m : List (List Cell)) (i : Int) (j : Int) (v : Cell) : List (List Cell) :=
  if 0 ≤ i ∧ 0 ≤ j then
    m.set i.toNat ((m[i.toNat]?.getD []).set j.toNat v)
  else m

/-- Read the cell at row `i`, column `j` (with `Nat` indices); any
out-of-range access reads as an absent edge, exactly as the JavaScript
reads `=== 1` / `> 0` do on `undefined`. -/
def matRead (m : List (List Cell)) (i j : Nat) : Bool :=
  cellB ((m[i]?.bind (fun row => row[j]?)).join)

/-- The runtime errors thrown by the library.  `nodeAlreadyExists` and
`nodeDoesntExist` carry the identity named by the error object;
`cycleError` carries the two identities interpolated into the message of
`DirectedAcyclicGraph.addEdge`; `cycleErrorFromConversion` is the
fixed-message `CycleError` of `fromDirectedGraph`; `typeError` is the
`TypeError` JavaScript raises when indexing into `undefined`
(e.g. `this.adjacency[-1][j]`). -/
inductive JsErr where
  | nodeAlreadyExists (identity : String)
  | nodeDoesntExist (identity : String)
  | cycleError (fromIdentity toIdentity : String)
  | cycleErrorFromConversion
  | typeError
deriving DecidableEq, Repr

/-- The state of a graph object.  The base `Graph` only uses `nodes`,
`adjacency` and `nodeIdentity`; `DirectedGraph` adds the `hasCycle` cache
(`none` is `undefined`); `DirectedAcyclicGraph` adds the
`_topologicallySortedNodes` cache, here `topoCache`. -/
structure JsGraph (T : Type) where
  nodes : List (String × T)
  adjacency : List (List Cell)
  nodeIdentity : T → String
  hasCycle : Option Bool
  topoCache : Option (List T)

/-- `Array.from(this.nodes.keys())`. -/
def keys (g : JsGraph T) : List String := g.nodes.map (fun p => p.1)

/-- `new Graph<T>(nodeIdentity)` (also the state of a freshly constructed
`DirectedGraph`, whose `hasCycle` field starts out `undefined`). -/
def Graph.new (nodeIdentity : T → String) : JsGraph T :=
  { nodes := [], adjacency := [], nodeIdentity := nodeIdentity,
    hasCycle := none, topoCache := none }

/-- `new DirectedAcyclicGraph<T>(nodeIdentity)`: the class redeclares
`protected hasCycle = false`, so the cache starts at `false`, not
`undefined`. -/
def DirectedAcyclicGraph.new (nodeIdentity : T → String) : JsGraph T :=
  { nodes := [], adjacency := [], nodeIdentity := nodeIdentity,
    hasCycle := some false, topoCache := none }

/-- `Graph.insert` (src/graph.ts:114-126).  On a fresh identity it stores
the value, pushes a `0` onto every existing row, and pushes
`new Array(length + 1)` — a sparse row of holes — as the new row. -/
def Graph.insert (g : JsGraph T) (node : T) : Except (JsErr × JsGraph T) (String × JsGraph T) :=
  let isOverwrite := jsMapHas g.nodes (g.nodeIdentity node)
  if isOverwrite then
    .error (.nodeAlreadyExists (g.nodeIdentity node), g)
  else
    .ok (g.nodeIdentity node,
      { g with
        nodes := g.nodes ++ [(g.nodeIdentity node, node)],
        adjacency := (g.adjacency.map (fun adj => adj ++ [some false]))
          ++ [List.replicate (g.adjacency.length + 1) none] })

/-- `Graph.replace` (src/graph.ts:136-144): overwrite the stored value
only, never the matrix. -/
def Graph.replace (g : JsGraph T) (node : T) : Except (JsErr × JsGraph T) (JsGraph T) :=
  let isOverwrite := jsMapHas g.nodes (g.nodeIdentity node)
  if !isOverwrite then
    .error (.nodeDoesntExist (g.nodeIdentity node), g)
  else
    .ok { g with nodes := jsMapSet g.nodes (g.nodeIdentity node) node }

/-- `Graph.upsert` (src/graph.ts:153-164): set the value, and grow the
matrix only when the identity was fresh.  It never throws. -/
def Graph.upsert (g : JsGraph T) (node : T) : String × JsGraph T :=
  let isOverwrite := jsMapHas g.nodes (g.nodeIdentity node)
  let g1 := { g with nodes := jsMapSet g.nodes (g.nodeIdentity node) node }
  if !isOverwrite then
    (g.nodeIdentity node,
      { g1 with adjacency := (g1.adjacency.map (fun adj => adj ++ [some false]))
          ++ [List.replicate (g1.adjacency.length + 1) none] })
  else (g.nodeIdentity node, g1)

/-- `Graph.addEdge` (src/graph.ts:173-189): validate both endpoints (from
first), then set `matrix[indexOf from][indexOf to] = 1`. -/
def Graph.addEdge (g : JsGraph T) (node1Identity node2Identity : String) :
    Except (JsErr × JsGraph T) (JsGraph T) :=
  let node1Exists := jsMapHas g.nodes node1Identity
  let node2Exists := jsMapHas g.nodes node2Identity
  if !node1Exists then .error (.nodeDoesntExist node1Identity, g)
  else if !node2Exists then .error (.nodeDoesntExist node2Identity, g)
  else
    let node1Index := jsIndexOf (keys g) node1Identity
    let node2Index := jsIndexOf (keys g) node2Identity
    .ok { g with adjacency := matSet g.adjacency node1Index node2Index (some true) }

/-- `Graph.getNodes` (no comparator argument in this revision). -/
def Graph.getNodes (g : JsGraph T) : List T := g.nodes.map (fun p => p.2)

/-- `Graph.getNode`. -/
def Graph.getNode (g : JsGraph T) (identity : String) : Option T := jsMapGet g.nodes identity

/-- The count computed by `DirectedGraph.indegreeOfNode` once the identity
is known to be present: `adjacency.reduce((carry, row) => carry + (row[idx] > 0 ? 1 : 0), 0)`. -/
def indegCount (g : JsGraph T) (nodeID : String) : Nat :=
  g.adjacency.foldl
    (fun carry row => carry + if cellB ((jsGetInt row (jsIndexOf (keys g) nodeID)).join) then 1 else 0) 0

/-- `DirectedGraph.indegreeOfNode` (directedAcyclicGraph.ts:194-205 of the
concatenated file): `NodeDoesntExistError` when the identity is absent,
otherwise the column count.  It reads the receiver without mutating it. -/
def DirectedGraph.indegreeOfNode (g : JsGraph T) (nodeID : String) : Except JsErr Nat :=
  if jsIndexOf (keys g) nodeID == -1 then .error (.nodeDoesntExist nodeID)
  else .ok (indegCount g nodeID)

/-- The `reduce` callback chain of `canReachFrom` over one adjacency row
(`(carry, edge, index) => carry || edge < 1 ? carry : canReachFrom(ids[index], endNode)`).
`reduce` skips holes; a thrown error or exhausted fuel in a recursive call
aborts the whole fold.  When `ids[index]` is `undefined` the recursive
call would compute `indexOf(undefined) = -1` and throw the same
`TypeError` as any absent start node, which is inlined here. -/
def reduceRow (canNext : String → Option (Except JsErr Bool)) (nodeIdentities : List String) :
    List (Nat × Cell) → Option (Except JsErr Bool) → Option (Except JsErr Bool)
  | [], carry => carry
  | (index, edge) :: rest, carry =>
    match edge with
    | none => reduceRow canNext nodeIdentities rest carry
    | some e =>
      match carry with
      | some (.ok c) =>
        if c || !e then reduceRow canNext nodeIdentities rest carry
        else
          match nodeIdentities[index]? with
          | some k => reduceRow canNext nodeIdentities rest (canNext k)
          | none => some (.error .typeError)
      | other => other

/-- `DirectedGraph.canReachFrom` (directedAcyclicGraph.ts:233-249 of the
concatenated file), with fuel: a depth-first search along out-edges with
no visited set.  When the start node is absent, `indexOf` yields `-1` and
`this.adjacency[-1][endNodeIndex]` throws a `TypeError`.  An absent end
node merely reads as no direct edge. -/
def canReachF (g : JsGraph T) : Nat → String → String → Option (Except JsErr Bool)
  | 0, _, _ => none
  | fuel + 1, startNode, endNode =>
    let nodeIdentities := keys g
    let startNodeIndex := jsIndexOf nodeIdentities startNode
    let endNodeIndex := jsIndexOf nodeIdentities endNode
    match jsGetInt g.adjacency startNodeIndex with
    | none => some (.error .typeError)
    | some row =>
      if cellB ((jsGetInt row endNodeIndex).join) then some (.ok true)
      else reduceRow (fun k => canReachF g fuel k endNode) nodeIdentities row.enum (some (.ok false))

/-- `DirectedGraph.wouldAddingEdgeCreateCyle` (source spelling), line 258-260:
`this.hasCycle || from === to || this.canReachFrom(to, from)` with
JavaScript short-circuiting and `undefined` read as falsy. -/
def wouldAddingEdgeCreateCyleF (g : JsGraph T) (fuel : Nat)
    (fromNodeIdentity toNodeIdentity : String) : Option (Except JsErr Bool) :=
  if g.hasCycle.getD false then some (.ok true)
  else if fromNodeIdentity == toNodeIdentity then some (.ok true)
  else canReachF g fuel toNodeIdentity fromNodeIdentity

/-- `DirectedGraph.addEdge` (directedAcyclicGraph.ts:215-223 of the
concatenated file).  With `skipUpdatingCyclicality` false and no known
cycle it eagerly evaluates `wouldAddingEdgeCreateCyle` and stores the
outcome in the cache before delegating; with it true the cache is reset
to `undefined`.  Note the cache write happens before the base
`addEdge` validates the endpoints. -/
def DirectedGraph.addEdgeF (g : JsGraph T) (fuel : Nat)
    (fromNodeIdentity toNodeIdentity : String) (skipUpdatingCyclicality : Bool) :
    Option (Except (JsErr × JsGraph T) (JsGraph T)) :=
  if !(g.hasCycle.getD false) && !skipUpdatingCyclicality then
    match wouldAddingEdgeCreateCyleF g fuel fromNodeIdentity toNodeIdentity with
    | none => none
    | some (.error e) => some (.error (e, g))
    | some (.ok b) =>
      some (Graph.addEdge { g with hasCycle := some b } fromNodeIdentity toNodeIdentity)
  else if skipUpdatingCyclicality then
    some (Graph.addEdge { g with hasCycle := none } fromNodeIdentity toNodeIdentity)
  else
    some (Graph.addEdge g fromNodeIdentity toNodeIdentity)

/-- One cell of the Kahn worklist body, shared by `isAcyclic`
(`zeroRow = false`, directedAcyclicGraph.ts:160-180) and
`topologicallySortedNodes` (`zeroRow = true`, lines 92-108): for a cell
that stores `1`, zero it in the working copy (topological sort only),
decrement the target indegree, and push the target when the decrement
reaches exactly 0.  `isAcyclic` guards `currentInDegree !== undefined`;
the guard can only fail when the column index is outside the identity
list, where the sort variant updates the map under the key `undefined`,
which no later read observes — both are the skip branch here.
The sort variant pushes the literal pair `[key, 0]` where this pushes
`(key, d - 1)`; the push is guarded by `d - 1 == 0`, so they agree. -/
def processRow (zeroRow : Bool) (ids : List String) (rowIdx : Int) :
    List (Nat × Cell) → List (List Cell) → List (String × Int) → List (String × Int) →
    List (List Cell) × List (String × Int) × List (String × Int)
  | [], adjC, indegs, toSearch => (adjC, indegs, toSearch)
  | (index, cell) :: rest, adjC, indegs, toSearch =>
    if cellB cell then
      let adjC1 := if zeroRow then matSet adjC rowIdx (index : Int) (some false) else adjC
      match ids[index]? with
      | none => processRow zeroRow ids rowIdx rest adjC1 indegs toSearch
      | some k =>
        match jsMapGet indegs k with
        | none => processRow zeroRow ids rowIdx rest adjC1 indegs toSearch
        | some d =>
          let indegs1 := jsMapSet indegs k (d - 1)
          let toSearch1 := if d - 1 == 0 then toSearch ++ [(k, d - 1)] else toSearch
          processRow zeroRow ids rowIdx rest adjC1 indegs1 toSearch1
    else processRow zeroRow ids rowIdx rest adjC indegs toSearch

/-- The shared worklist loop of Kahn's algorithm: pop the last pair,
process its adjacency row, append the popped key to the output.
`isAcyclic` keeps only the counter `visitedNodes`; the output list of
popped keys refines it (its length is the counter).  The sort variant
reads the row through the optional chain `?.`, so a missing row is
skipped; for `isAcyclic` a missing row is unreachable for well-formed
states (JavaScript would throw there). -/
def kahnLoop (zeroRow : Bool) (ids : List String) :
    Nat → List (List Cell) → List (String × Int) → List (String × Int) → List String →
    Option (List String)
  | 0, _, _, _, _ => none
  | fuel + 1, adjC, indegs, toSearch, out =>
    match toSearch.getLast? with
    | none => some out
    | some cur =>
      let rest := toSearch.dropLast
      let nodeIndex := jsIndexOf ids cur.1
      match jsGetInt adjC nodeIndex with
      | none => kahnLoop zeroRow ids fuel adjC indegs rest (out ++ [cur.1])
      | some row =>
        let s := processRow zeroRow ids nodeIndex row.enum adjC indegs rest
        kahnLoop zeroRow ids fuel s.1 s.2.1 s.2.2 (out ++ [cur.1])

/-- `DirectedGraph.isAcyclic` (directedAcyclicGraph.ts:148-185 of the
concatenated file): answer `!hasCycle` from a warm cache, otherwise run
Kahn over the live adjacency (no copy, no zeroing) and cache whether
every node was popped. -/
def isAcyclicF (g : JsGraph T) (fuel : Nat) : Option (Bool × JsGraph T) :=
  match g.hasCycle with
  | some hc => some (!hc, g)
  | none =>
    let nodeIndices := keys g
    let nodeInDegrees := nodeIndices.map (fun n => (n, (indegCount g n : Int)))
    let toSearch := nodeInDegrees.filter (fun pair => pair.2 == 0)
    match kahnLoop false nodeIndices fuel g.adjacency nodeInDegrees toSearch [] with
    | none => none
    | some popped =>
      some (popped.length == g.nodes.length,
        { g with hasCycle := some (!(popped.length == g.nodes.length)) })

/-- `DirectedAcyclicGraph.topologicallySortedNodes`
(directedAcyclicGraph.ts:72-117): return a warm cache; otherwise build the
indegree map, short-cut when every node already has indegree 0 (return
stored values in insertion order), else run Kahn over a working copy of
the matrix with zeroing, and cache the value list.  The source pushes
`this.nodes.get(key) as T` while popping; the popped keys are always
present in the node map, so collecting keys and mapping `nodes.get` over
them afterwards (dropping the impossible `undefined`) yields the same
list. -/
def topologicallySortedNodesF (g : JsGraph T) (fuel : Nat) : Option (List T × JsGraph T) :=
  match g.topoCache with
  | some cached => some (cached, g)
  | none =>
    let nodeIndices := keys g
    let nodeInDegrees := nodeIndices.map (fun n => (n, (indegCount g n : Int)))
    let adjCopy := g.adjacency
    let toSearch := nodeInDegrees.filter (fun pair => pair.2 == 0)
    if toSearch.length == g.nodes.length then
      let arrayOfNodes := g.nodes.map (fun p => p.2)
      some (arrayOfNodes, { g with topoCache := some arrayOfNodes })
    else
      match kahnLoop true nodeIndices fuel adjCopy nodeInDegrees toSearch [] with
      | none => none
      | some popped =>
        let toReturn := popped.filterMap (fun k => jsMapGet g.nodes k)
        some (toReturn, { g with topoCache := some toReturn })

/-- The `forEach` body of the `recur` closure in
`DirectedGraph.getSubGraphStartingFrom` (directedAcyclicGraph.ts:276-290
of the concatenated file).  Note the membership test uses the *parameter*
`nodesToInclude`, which does not change while the row is processed — only
the local `toReturn` grows — so an identity can be descended into again.
`forEach` skips holes; a column index outside the identity list makes
`nodes.get(undefined)` return `undefined`, failing the `if (newNode)`
guard. -/
def recurRow (recNext : String → List T → Option (List T)) (g : JsGraph T) (ids : List String) :
    List (Nat × Cell) → List T → List T → Option (List T)
  | [], _, toReturn => some toReturn
  | (index, hasAdj) :: rest, nodesToInclude, toReturn =>
    if cellB hasAdj then
      match ids[index]? with
      | none => recurRow recNext g ids rest nodesToInclude toReturn
      | some key =>
        if !(nodesToInclude.any (fun n => g.nodeIdentity n == key)) then
          match jsMapGet g.nodes key with
          | some newNode =>
            match recNext key toReturn with
            | none => none
            | some toReturn1 => recurRow recNext g ids rest nodesToInclude (toReturn1 ++ [newNode])
          | none => recurRow recNext g ids rest nodesToInclude toReturn
        else recurRow recNext g ids rest nodesToInclude toReturn
    else recurRow recNext g ids rest nodesToInclude toReturn

/-- The `recur` closure itself, with fuel.  A missing adjacency row would
throw in JavaScript (`forEach` of `undefined`, no optional chain at line
279); it is embedded as returning the accumulator unchanged and is
unreachable for identities present in a well-formed graph. -/
def recurF (g : JsGraph T) (ids : List String) :
    Nat → String → List T → Option (List T)
  | 0, _, _ => none
  | fuel + 1, startNodeIdentity, nodesToInclude =>
    let nodeIndex := jsIndexOf ids startNodeIdentity
    match jsGetInt g.adjacency nodeIndex with
    | none => some nodesToInclude
    | some row =>
      recurRow (fun k acc => recurF g ids fuel k acc) g ids row.enum nodesToInclude nodesToInclude

/-- `DirectedGraph.subAdj` (directedAcyclicGraph.ts:304-315 of the
concatenated file): keep the rows of included identities, and `filter`
each kept row by column inclusion.  `Array.prototype.filter` skips holes,
so the holes of the sparse rows produced by `insert` are dropped even
when their column is included, compacting the row. -/
def subAdj (g : JsGraph T) (includeList : List T) : List (List Cell) :=
  let includeIdents := includeList.map g.nodeIdentity
  let nodeIndices := keys g
  g.adjacency.enum.foldl
    (fun carry pr =>
      match nodeIndices[pr.1]? with
      | some k =>
        if includeIdents.contains k then
          carry ++ [pr.2.enum.filterMap (fun cpr =>
            match cpr.2 with
            | none => none
            | some b =>
              match nodeIndices[cpr.1]? with
              | some k2 => if includeIdents.contains k2 then some (some b) else none
              | none => none)]
        else carry
      | none => carry)
    []

/-- The node-insertion pass of `getSubGraphStartingFrom` (lines 295-299):
iterate the source map values in insertion order and `insert` those whose
identity is included into the fresh graph; an exception from `insert`
would propagate. -/
def insertIncluded (g : JsGraph T) (includeIdents : List String) :
    List T → JsGraph T → Except (JsErr × JsGraph T) (JsGraph T)
  | [], newGraph => .ok newGraph
  | n :: rest, newGraph =>
    if includeIdents.contains (g.nodeIdentity n) then
      match Graph.insert newGraph n with
      | .error e => .error e
      | .ok (_, newGraph1) => insertIncluded g includeIdents rest newGraph1
    else insertIncluded g includeIdents rest newGraph

/-- `DirectedGraph.getSubGraphStartingFrom`
(directedAcyclicGraph.ts:268-302 of the concatenated file).  The result
pairs the new graph with the (unchanged) source state.  The new graph is
built with `new DirectedGraph<T>(this.nodeIdentity)` and its adjacency is
then overwritten with `subAdj`. -/
def DirectedGraph.getSubGraphStartingFromF (g : JsGraph T) (fuel : Nat)
    (startNodeIdentity : String) :
    Option (Except (JsErr × JsGraph T) (JsGraph T × JsGraph T)) :=
  let nodeIndices := keys g
  match jsMapGet g.nodes startNodeIdentity with
  | none => some (.error (.nodeDoesntExist startNodeIdentity, g))
  | some initalNode =>
    match recurF g nodeIndices fuel startNodeIdentity [initalNode] with
    | none => none
    | some nodeList =>
      let includeIdents := nodeList.map g.nodeIdentity
      match insertIncluded g includeIdents (g.nodes.map (fun p => p.2)) (Graph.new g.nodeIdentity) with
      | .error e => some (.error (e.1, g))
      | .ok newGraph =>
        some (.ok ({ newGraph with adjacency := subAdj g nodeList }, g))

/-- `DirectedAcyclicGraph.fromDirectedGraph` (directedAcyclicGraph.ts:20-30),
parameterized by the module-level default identity function `hash`
(object-hash): on `isAcyclic()` failure throw the fixed-message
`CycleError`; otherwise build `new DirectedAcyclicGraph<T>()` — whose
identity function is the *default* `hash`, not the source graph's — and
transfer the source node map and adjacency matrix into it.  The result
pairs the new DAG with the source state as mutated by `isAcyclic`
(its `hasCycle` cache may have been populated). -/
def fromDirectedGraphF (hash : T → String) (g : JsGraph T) (fuel : Nat) :
    Option (Except (JsErr × JsGraph T) (JsGraph T × JsGraph T)) :=
  match isAcyclicF g fuel with
  | none => none
  | some (acyclic, g1) =>
    if !acyclic then some (.error (.cycleErrorFromConversion, g1))
    else
      some (.ok ({ DirectedAcyclicGraph.new hash with nodes := g1.nodes, adjacency := g1.adjacency },
        g1))

/-- `DirectedAcyclicGraph.addEdge` (directedAcyclicGraph.ts:40-48): throw
`CycleError` naming both identities when `wouldAddingEdgeCreateCyle`
reports true; otherwise clear the topological cache and delegate with
`skipUpdatingCyclicality = true`. -/
def DirectedAcyclicGraph.addEdgeF (g : JsGraph T) (fuel : Nat)
    (fromNodeIdentity toNodeIdentity : String) :
    Option (Except (JsErr × JsGraph T) (JsGraph T)) :=
  match wouldAddingEdgeCreateCyleF g fuel fromNodeIdentity toNodeIdentity with
  | none => none
  | some (.error e) => some (.error (e, g))
  | some (.ok true) => some (.error (.cycleError fromNodeIdentity toNodeIdentity, g))
  | some (.ok false) =>
    DirectedGraph.addEdgeF { g with topoCache := none } fuel fromNodeIdentity toNodeIdentity true

/-- `DirectedAcyclicGraph.insert` (directedAcyclicGraph.ts:56-62): when a
topological cache is present (a JavaScript array is truthy even when
empty) the new node value is prepended to it *before* the base `insert`
runs its duplicate check. -/
def DirectedAcyclicGraph.insert (g : JsGraph T) (node : T) :
    Except (JsErr × JsGraph T) (String × JsGraph T) :=
  let g1 := match g.topoCache with
    | some cached => { g with topoCache := some (node :: cached) }
    | none => g
  Graph.insert g1 node

/-- `DirectedAcyclicGraph.getSubGraphStartingFrom`
(directedAcyclicGraph.ts:125-127): the closure computed by the
`DirectedGraph` method, converted through `fromDirectedGraph` (and hence
re-keyed to the default `hash`). -/
def DirectedAcyclicGraph.getSubGraphStartingFromF (hash : T → String) (g : JsGraph T)
    (fuel : Nat) (startNodeIdentity : String) :
    Option (Except (JsErr × JsGraph T) (JsGraph T × JsGraph T)) :=
  match DirectedGraph.getSubGraphStartingFromF g fuel startNodeIdentity with
  | none => none
  | some (.error e) => some (.error e)
  | some (.ok (sub, g1)) =>
    match fromDirectedGraphF hash sub fuel with
    | none => none
    | some (.error (e, _)) => some (.error (e, g1))
    | some (.ok (dag, _)) => some (.ok (dag, g1))

/-! ## Specification-level predicates -/

/-- The edge relation recorded in the adjacency matrix, at ordinal level:
`edgeB g i j` is true when cell `(i, j)` stores a `1`. -/
def edgeB (g : JsGraph T) (i j : Nat) : Bool := matRead g.adjacency i j

/-- `edgeB` as a relation. -/
def edgeRel (g : JsGraph T) (i j : Nat) : Prop := edgeB g i j = true

/-- The adjacency matrix contains no directed cycle: no ordinal reaches
itself through a nonempty edge path.  Ordinals outside the matrix have no
edges, so no bound is needed. -/
def AcyclicMatrix (g : JsGraph T) : Prop :=
  ∀ i, ¬ Relation.TransGen (edgeRel g) i i

/-- Well-formedness of a graph state: distinct identities and a square
adjacency matrix of dimension the node count.  Every constructor
establishes it and every operation preserves it. -/
def WF (g : JsGraph T) : Prop :=
  (keys g).Nodup ∧ g.adjacency.length = g.nodes.length ∧
    ∀ row ∈ g.adjacency, row.length = g.nodes.length

instance (g : JsGraph T) : Decidable (WF g) := by
  unfold WF
  infer_instance

/-! ## Concrete states used by counterexamples and witnesses

The helpers below unwrap the result of an operation that is expected to
succeed (falling back to the input state otherwise); they are a test
harness, not part of the embedding. -/

/-- Unwrap a successful `insert`. -/
def okInsert (g : JsGraph String) (v : String) : JsGraph String :=
  match Graph.insert g v with
  | .ok p => p.2
  | .error p => p.2

/-- Unwrap a successful `DirectedGraph.addEdge`. -/
def okDGEdge (g : JsGraph String) (a b : String) (skip : Bool) : JsGraph String :=
  match DirectedGraph.addEdgeF g 9 a b skip with
  | some (.ok g1) => g1
  | some (.error p) => p.2
  | none => g

/-- Unwrap a successful `DirectedAcyclicGraph.insert`. -/
def okDagInsert (g : JsGraph String) (v : String) : JsGraph String :=
  match DirectedAcyclicGraph.insert g v with
  | .ok p => p.2
  | .error p => p.2

/-- Unwrap a successful `DirectedAcyclicGraph.addEdge`. -/
def okDagEdge (g : JsGraph String) (a b : String) : JsGraph String :=
  match DirectedAcyclicGraph.addEdgeF g 9 a b with
  | some (.ok g1) => g1
  | some (.error p) => p.2
  | none => g

/-- The identity function used by the concrete states (the nodes are
their own identities, as in the `(n) => n.name` tests of the repository). -/
def strId : String → String := fun s => s

/-- A `DirectedGraph` built through the public API whose cycle cache is
stale: insert A, B, C, D; `addEdge(A, B)`; `addEdge(B, A, true)` (the
public `skipUpdatingCyclicality` parameter resets the cache to unknown
instead of recomputing); `addEdge(C, D)` (the eager check explores only
the edge-free row of D, finds nothing, and caches `hasCycle = false`).
The resulting state contains the cycle A to B to A while `isAcyclic()`
answers `true` from the cache. -/
def staleDG : JsGraph String :=
  okDGEdge (okDGEdge (okDGEdge
    (okInsert (okInsert (okInsert (okInsert (Graph.new strId) "A") "B") "C") "D")
    "A" "B" false) "B" "A" true) "C" "D" false

/-- The cyclic `DirectedAcyclicGraph` obtained from `staleDG` through the
public `fromDirectedGraph` conversion, which trusts the stale cache. -/
def staleDAG : JsGraph String :=
  match fromDirectedGraphF strId staleDG 9 with
  | some (.ok p) => p.1
  | _ => Graph.new strId

/-- A two-node `DirectedGraph` with the self-loop A to A (inserted
through the public API; the tier permits cycles). -/
def selfLoopDG : JsGraph String :=
  okDGEdge (okInsert (okInsert (Graph.new strId) "A") "X") "A" "A" false

/-- The A, B, C chain DAG of the specification scenario, built through
the DAG API: edges A to B and B to C. -/
def chainDAG : JsGraph String :=
  okDagEdge (okDagEdge
    (okDagInsert (okDagInsert (okDagInsert (DirectedAcyclicGraph.new strId) "A") "B") "C")
    "A" "B") "B" "C"

/-- `chainDAG` after a `topologicallySortedNodes()` call: its topological
cache is warm (`["A", "B", "C"]`). -/
def warmDAG : JsGraph String :=
  match topologicallySortedNodesF chainDAG 9 with
  | some p => p.2
  | none => chainDAG

/-- The A, B, C graph of the repository test
"can return a subgraph based on walking from a start node"
(test/directedGraph.test.ts): edges A to B and B to C on a
`DirectedGraph`. -/
def subTestDG : JsGraph String :=
  okDGEdge (okDGEdge
    (okInsert (okInsert (okInsert (Graph.new strId) "A") "B") "C")
    "A" "B" false) "B" "C" false

/-- The subgraph the library extracts from `subTestDG` at A. -/
def subTestSub : JsGraph String :=
  match DirectedGraph.getSubGraphStartingFromF subTestDG 9 "A" with
  | some (.ok p) => p.1
  | _ => Graph.new strId

/-- A one-node `DirectedGraph` used to exercise `addEdge` with an absent
`to` endpoint. -/
def oneNodeDG : JsGraph String := okInsert (Graph.new strId) "A"

/-! ## Lemmas about the JavaScript primitives -/

theorem jsMapHas_iff_mem {m : List (String × T)} {k : String} :
    jsMapHas m k = true ↔ k ∈ m.map (fun p => p.1) := by
  unfold jsMapHas
  rw [List.any_eq_true]
  constructor
  · rintro ⟨p, hp, hb⟩
    exact List.mem_map.mpr ⟨p, hp, by simpa using hb⟩
  · intro h
    rcases List.mem_map.mp h with ⟨p, hp, hk⟩
    exact ⟨p, hp, by simp [hk]⟩

theorem jsMapHas_eq_false_iff {m : List (String × T)} {k : String} :
    jsMapHas m k = false ↔ k ∉ m.map (fun p => p.1) := by
  rw [← jsMapHas_iff_mem (m := m) (k := k)]
  exact Bool.eq_false_iff

theorem jsIndexOf_of_not_mem {l : List String} {k : String} (h : k ∉ l) :
    jsIndexOf l k = -1 := by
  unfold jsIndexOf
  have : l.findIdx? (fun x => x == k) = none := by
    rw [List.findIdx?_eq_none_iff]
    intro x hx
    simp only [beq_eq_false_iff_ne]
    rintro rfl
    exact h hx
  rw [this]

theorem jsIndexOf_spec_of_mem {l : List String} {k : String} (h : k ∈ l) :
    ∃ i : Nat, jsIndexOf l k = (i : Int) ∧ i < l.length ∧ l[i]? = some k := by
  unfold jsIndexOf
  have hs : (l.findIdx? (fun x => x == k)).isSome := by
    rw [List.findIdx?_isSome, List.any_eq_true]
    exact ⟨k, h, by simp⟩
  rcases Option.isSome_iff_exists.mp hs with ⟨i, hi⟩
  rcases List.findIdx?_eq_some_iff_getElem.mp hi with ⟨hlt, hbeq, _⟩
  refine ⟨i, by rw [hi], hlt, ?_⟩
  rw [List.getElem?_eq_getElem hlt]
  simpa using hbeq

theorem jsIndexOf_of_nodup {l : List String} (hn : l.Nodup) {i : Nat} {k : String}
    (h : l[i]? = some k) : jsIndexOf l k = (i : Int) := by
  have hmem : k ∈ l := List.getElem?_mem h
  rcases jsIndexOf_spec_of_mem hmem with ⟨i2, heq, hlt, hget⟩
  have hilt : i < l.length := (List.getElem?_eq_some.mp h).1
  have : i2 = i := by
    have h3 : l[i2]? = l[i]? := by rw [h, hget]
    exact List.getElem?_inj hlt hn h3
  rw [heq, this]

theorem jsGetInt_natCast (l : List α) (i : Nat) : jsGetInt l (i : Int) = l[i]? := by
  unfold jsGetInt
  rw [if_neg (by omega)]
  simp

theorem jsGetInt_neg (l : List α) {i : Int} (h : i < 0) : jsGetInt l i = none := by
  unfold jsGetInt
  rw [if_pos h]

theorem jsMapGet_eq_none_iff {m : List (String × T)} {k : String} :
    jsMapGet m k = none ↔ k ∉ m.map (fun p => p.1) := by
  unfold jsMapGet
  rw [Option.map_eq_none', List.find?_eq_none]
  constructor
  · intro h hk
    rcases List.mem_map.mp hk with ⟨p, hp, hpk⟩
    exact absurd (show (p.1 == k) = true by simp [hpk]) (h p hp)
  · intro h p hp hb
    exact h (List.mem_map.mpr ⟨p, hp, by simpa using hb⟩)

theorem jsMapGet_isSome_of_mem {m : List (String × T)} {k : String}
    (h : k ∈ m.map (fun p => p.1)) : (jsMapGet m k).isSome := by
  cases hg : jsMapGet m k with
  | some v => rfl
  | none => exact absurd h (jsMapGet_eq_none_iff.mp hg)

theorem jsMapGet_cons_self {k1 k : String} {v : T} {rest : List (String × T)} (h : k1 = k) :
    jsMapGet ((k1, v) :: rest) k = some v := by
  unfold jsMapGet
  rw [List.find?_cons_of_pos _ (by simp [h])]
  rfl

theorem jsMapGet_cons_ne {k1 k : String} {v : T} {rest : List (String × T)} (h : k1 ≠ k) :
    jsMapGet ((k1, v) :: rest) k = jsMapGet rest k := by
  unfold jsMapGet
  rw [List.find?_cons_of_neg _ (by simp [h])]

theorem jsMapGet_tabulate {ids : List String} (f : String → β) {k : String} (h : k ∈ ids) :
    jsMapGet (ids.map (fun n => (n, f n))) k = some (f k) := by
  induction ids with
  | nil => cases h
  | cons x xs ih =>
    by_cases hx : x = k
    · subst hx
      rw [List.map_cons, jsMapGet_cons_self rfl]
    · have hxs : k ∈ xs := by
        rcases List.mem_cons.mp h with h1 | h1
        · exact absurd h1.symm hx
        · exact h1
      rw [List.map_cons, jsMapGet_cons_ne hx]
      exact ih hxs

theorem jsMapGet_jsMapSet_self (m : List (String × T)) (k : String) (v : T) :
    jsMapGet (jsMapSet m k v) k = some v := by
  induction m with
  | nil => rw [jsMapSet, jsMapGet_cons_self rfl]
  | cons p rest ih =>
    rcases p with ⟨k0, v0⟩
    by_cases hp : k0 = k
    · simp only [jsMapSet]
      rw [if_pos (by simpa using hp), jsMapGet_cons_self hp]
    · simp only [jsMapSet]
      rw [if_neg (by simpa using hp), jsMapGet_cons_ne hp]
      exact ih

theorem jsMapGet_jsMapSet_ne (m : List (String × T)) {k k2 : String} (h : k2 ≠ k) (v : T) :
    jsMapGet (jsMapSet m k v) k2 = jsMapGet m k2 := by
  induction m with
  | nil =>
    rw [jsMapSet, jsMapGet_cons_ne (fun hc => h hc.symm)]
  | cons p rest ih =>
    rcases p with ⟨k0, v0⟩
    by_cases hp : k0 = k
    · have hp2 : k0 ≠ k2 := fun hc => h (hc.symm.trans hp)
      simp only [jsMapSet]
      rw [if_pos (by simpa using hp), jsMapGet_cons_ne hp2, jsMapGet_cons_ne hp2]
    · simp only [jsMapSet]
      rw [if_neg (by simpa using hp)]
      by_cases hp2 : k0 = k2
      · rw [jsMapGet_cons_self hp2, jsMapGet_cons_self hp2]
      · rw [jsMapGet_cons_ne hp2, jsMapGet_cons_ne hp2]
        exact ih

theorem jsMapSet_keys_of_mem {m : List (String × T)} {k : String}
    (h : k ∈ m.map (fun p => p.1)) (v : T) :
    (jsMapSet m k v).map (fun p => p.1) = m.map (fun p => p.1) := by
  induction m with
  | nil => cases h
  | cons p rest ih =>
    rcases p with ⟨k0, v0⟩
    by_cases hp : k0 = k
    · simp only [jsMapSet]
      rw [if_pos (by simpa using hp)]
      simp
    · have hrest : k ∈ rest.map (fun p => p.1) := by
        rw [List.map_cons, List.mem_cons] at h
        rcases h with h1 | h1
        · exact absurd h1.symm hp
        · exact h1
      simp only [jsMapSet]
      rw [if_neg (by simpa using hp)]
      rw [List.map_cons, List.map_cons, ih hrest]

theorem jsMapSet_keys_of_not_mem {m : List (String × T)} {k : String}
    (h : k ∉ m.map (fun p => p.1)) (v : T) :
    (jsMapSet m k v).map (fun p => p.1) = m.map (fun p => p.1) ++ [k] := by
  induction m with
  | nil => simp [jsMapSet]
  | cons p rest ih =>
    rcases p with ⟨k0, v0⟩
    have hp : k0 ≠ k := by
      intro hc
      exact h (by simp [hc])
    simp only [jsMapSet]
    rw [if_neg (by simpa using hp)]
    have hr : k ∉ rest.map (fun p => p.1) := fun hc => h (by simp [hc])
    rw [List.map_cons, List.map_cons, ih hr, List.cons_append]

/-! ## Lemmas about matrix reads and writes -/

theorem matSet_length (m : List (List Cell)) (i j : Int) (v : Cell) :
    (matSet m i j v).length = m.length := by
  unfold matSet
  split
  · exact List.length_set m _ _
  · rfl

theorem matSet_row_length {m : List (List Cell)} {n : Nat} (h : ∀ row ∈ m, row.length = n)
    (i j : Int) (v : Cell) : ∀ row ∈ matSet m i j v, row.length = n := by
  unfold matSet
  split
  · by_cases hi : i.toNat < m.length
    · intro row hrow
      rcases List.mem_or_eq_of_mem_set hrow with hm | he
      · exact h row hm
      · subst he
        rw [List.length_set]
        rw [List.getElem?_eq_getElem hi]
        exact h _ (List.getElem_mem hi)
    · rw [List.set_eq_of_length_le (by omega)]
      exact h
  · exact h

theorem matSet_read_self {m : List (List Cell)} {i j : Nat} {row : List Cell}
    (hrow : m[i]? = some row) (hj : j < row.length) (v : Cell) :
    matRead (matSet m (i : Int) (j : Int) v) i j = cellB v := by
  have hi : i < m.length := (List.getElem?_eq_some.mp hrow).1
  unfold matSet matRead
  rw [if_pos (by omega)]
  simp only [Int.toNat_natCast]
  rw [List.getElem?_set_self (by omega), hrow]
  simp only [Option.getD_some, Option.some_bind]
  rw [List.getElem?_set_self (by omega)]
  rfl

theorem matSet_read_other {m : List (List Cell)} (i j : Int) (v : Cell) {i2 j2 : Nat}
    (h : ¬(i = (i2 : Int) ∧ j = (j2 : Int))) :
    matRead (matSet m i j v) i2 j2 = matRead m i2 j2 := by
  unfold matSet matRead
  split
  case isFalse => rfl
  case isTrue hpos =>
    by_cases hi : i.toNat = i2
    · have hieq : i = (i2 : Int) := by omega
      have hjne : j.toNat ≠ j2 := by
        intro hc
        exact h ⟨hieq, by omega⟩
      subst hi
      by_cases hlt : i.toNat < m.length
      · rw [List.getElem?_set_self hlt, List.getElem?_eq_getElem hlt]
        simp only [Option.getD_some, Option.some_bind]
        rw [List.getElem?_set_ne hjne]
      · rw [List.set_eq_of_length_le (by omega)]
    · rw [List.getElem?_set_ne hi]

theorem cellRead_append_zero (row : List Cell) (j : Nat) :
    cellB ((row ++ [some false])[j]?.join) = cellB (row[j]?.join) := by
  rcases Nat.lt_trichotomy j row.length with h | h | h
  · rw [List.getElem?_append_left h]
  · subst h
    rw [List.getElem?_concat_length]
    rw [List.getElem?_eq_none (Nat.le_refl _)]
    rfl
  · rw [List.getElem?_eq_none (show (row ++ [some false]).length ≤ j by
        rw [List.length_append]; simpa using h),
      List.getElem?_eq_none (Nat.le_of_lt h)]

theorem matRead_oob {m : List (List Cell)} {i : Nat} (h : m.length ≤ i) (j : Nat) :
    matRead m i j = false := by
  unfold matRead
  rw [List.getElem?_eq_none h]
  rfl

/-! ## Claim C2: termination of the reachability search -/

/-- Claim C2: the spec requires `canReachFrom` and the closure extraction
to terminate on every `DirectedGraph`, including graphs with self-loops
and cycles.  The code has no visited set: on `selfLoopDG` (nodes A and X,
self-loop on A, built through the public API), `canReachFrom("A", "X")`
re-enters itself through the self-loop and never returns — for every
fuel the embedded search is still running.  In JavaScript the call
overflows the stack instead of answering. -/
theorem canReachFrom_diverges_on_cycle :
    jsMapHas selfLoopDG.nodes "A" = true ∧ jsMapHas selfLoopDG.nodes "X" = true ∧
    edgeB selfLoopDG 0 0 = true ∧
    ∀ fuel, canReachF selfLoopDG fuel "A" "X" = none := by
  refine ⟨rfl, rfl, rfl, ?_⟩
  intro fuel
  induction fuel with
  | zero => rfl
  | succ n ih =>
    have h1 : canReachF selfLoopDG (n + 1) "A" "X"
        = reduceRow (fun k => canReachF selfLoopDG n k "X") (keys selfLoopDG)
            [(1, some false)] (canReachF selfLoopDG n "A" "X") := rfl
    rw [h1, ih]
    rfl

/-! ## Claim C7: subgraph extraction -/

/-- Claim C7: on the graph of the repository's own subgraph test (A, B, C
with edges A to B and B to C), `getSubGraphStartingFrom("A")` does return
all three nodes, but `subAdj` filters the sparse rows with
`Array.prototype.filter`, which drops holes: the extracted adjacency is
`[[1, 0], [1], []]`, a compaction that shifts every edge (the subgraph
now records the self-edge A to A and has lost A to B).  The test at
test/directedGraph.test.ts then expects `subGraph.canReachFrom("A", "C")`
to be `true`, but on the extracted matrix the search chases the spurious
self-edge and never returns, while on the source graph it answers
`true`. -/
theorem getSubGraph_scrambles_edges :
    subTestDG.adjacency
        = [[none, some true, some false], [none, none, some true], [none, none, none]] ∧
    DirectedGraph.getSubGraphStartingFromF subTestDG 9 "A"
        = some (.ok (subTestSub, subTestDG)) ∧
    subTestSub.nodes = [("A", "A"), ("B", "B"), ("C", "C")] ∧
    subTestSub.adjacency = [[some true, some false], [some true], []] ∧
    edgeB subTestSub 0 0 = true ∧ edgeB subTestDG 0 0 = false ∧
    edgeB subTestDG 0 1 = true ∧ edgeB subTestSub 0 1 = false ∧
    canReachF subTestDG 9 "A" "C" = some (.ok true) ∧
    ∀ fuel, canReachF subTestSub fuel "A" "C" = none := by
  refine ⟨rfl, rfl, rfl, rfl, rfl, rfl, rfl, rfl, rfl, ?_⟩
  intro fuel
  induction fuel with
  | zero => rfl
  | succ n ih =>
    have h1 : canReachF subTestSub (n + 1) "A" "C"
        = reduceRow (fun k => canReachF subTestSub n k "C") (keys subTestSub)
            [(1, some false)] (canReachF subTestSub n "A" "C") := rfl
    rw [h1, ih]
    rfl

/-! ## Claim C1 (counterexample part): a publicly reachable DAG whose
topological sort misses nodes -/

/-- Claim C1 counterexample: `staleDAG` is reached through the public API
alone (inserts, `addEdge` with the public `skipUpdatingCyclicality`
parameter, one further `addEdge`, and `fromDirectedGraph`).  It stores
four nodes and the cycle A to B to A, yet `topologicallySortedNodes()`
returns only `["C", "D"]`: the value A occurs zero times instead of
exactly once. -/
theorem topo_misses_nodes_on_reachable_dag :
    staleDAG.nodes.length = 4 ∧
    edgeB staleDAG 0 1 = true ∧ edgeB staleDAG 1 0 = true ∧
    (topologicallySortedNodesF staleDAG 9).map (fun p => p.1) = some ["C", "D"] ∧
    "A" ∈ Graph.getNodes staleDAG ∧ "A" ∉ (["C", "D"] : List String) := by
  refine ⟨rfl, rfl, rfl, rfl, ?_, ?_⟩ <;> decide

/-! ## Claim C4 (counterexample part): a stale cycle cache -/

/-- Claim C4 counterexample: on `staleDG` — reachable through the public
API — `isAcyclic()` answers `true` from the cache populated by an earlier
`addEdge`, although the adjacency matrix contains the directed cycle
0 to 1 to 0.  The claimed equivalence with the absence of cycles fails. -/
theorem isAcyclic_true_on_cyclic_graph :
    isAcyclicF staleDG 9 = some (true, staleDG) ∧
    Relation.TransGen (edgeRel staleDG) 0 0 :=
  ⟨rfl, Relation.TransGen.head (b := 1) (show edgeB staleDG 0 1 = true by decide)
    (Relation.TransGen.single (show edgeB staleDG 1 0 = true by decide))⟩

/-! ## Claim C5 (counterexample part): a failed insert that changes an
observable query result -/

/-- `warmDAG` after the failing duplicate insert of A. -/
def warmDAGFailed : JsGraph String := okDagInsert warmDAG "A"

/-- Claim C5 counterexample: on `warmDAG` (cache `["A", "B", "C"]`, three
nodes), `insert("A")` fails with `NodeAlreadyExists`, yet the failed call
has prepended A to the topological cache: the next
`topologicallySortedNodes()` observably returns `["A", "A", "B", "C"]` —
four values for three stored nodes — where it returned
`["A", "B", "C"]` before the failed call. -/
theorem failed_insert_changes_topo_result :
    warmDAG.topoCache = some ["A", "B", "C"] ∧
    warmDAG.nodes.length = 3 ∧
    (topologicallySortedNodesF warmDAG 9).map (fun p => p.1) = some ["A", "B", "C"] ∧
    (DirectedAcyclicGraph.insert warmDAG "A").isOk = false ∧
    warmDAGFailed.nodes = warmDAG.nodes ∧
    warmDAGFailed.adjacency = warmDAG.adjacency ∧
    (topologicallySortedNodesF warmDAGFailed 9).map (fun p => p.1)
        = some ["A", "A", "B", "C"] := by
  exact ⟨rfl, rfl, rfl, rfl, rfl, rfl, rfl⟩

/-! ## Claim C6 (counterexample part): a missing `to` endpoint at the
directed tier -/

/-- Claim C6 counterexample: on the one-node `DirectedGraph`,
`addEdge("A", "Z")` with node Z absent does not fail with
`NodeDoesntExist` naming Z: the eager cycle check calls
`canReachFrom("Z", "A")`, `indexOf` returns `-1`, and
`this.adjacency[-1][...]` throws a `TypeError` before the base `addEdge`
ever validates the endpoints. -/
theorem addEdge_absent_to_throws_typeError :
    jsMapHas oneNodeDG.nodes "A" = true ∧ jsMapHas oneNodeDG.nodes "Z" = false ∧
    DirectedGraph.addEdgeF oneNodeDG 9 "A" "Z" false
        = some (.error (.typeError, oneNodeDG)) ∧
    (∀ id, (JsErr.typeError) ≠ JsErr.nodeDoesntExist id) := by
  refine ⟨rfl, rfl, rfl, fun id h => JsErr.noConfusion h⟩

/-! ## Error cases leave the node store and matrix unchanged (claim C5) -/

theorem insert_error_state {g : JsGraph T} {v : T} {e : JsErr} {g1 : JsGraph T}
    (h : Graph.insert g v = .error (e, g1)) :
    g1 = g ∧ e = .nodeAlreadyExists (g.nodeIdentity v) := by
  unfold Graph.insert at h
  by_cases hc : jsMapHas g.nodes (g.nodeIdentity v)
  · rw [if_pos hc] at h
    simp only [Except.error.injEq, Prod.mk.injEq] at h
    exact ⟨h.2.symm, h.1.symm⟩
  · rw [if_neg hc] at h
    exact absurd h (by simp)

theorem replace_error_state {g : JsGraph T} {v : T} {e : JsErr} {g1 : JsGraph T}
    (h : Graph.replace g v = .error (e, g1)) :
    g1 = g ∧ e = .nodeDoesntExist (g.nodeIdentity v) := by
  unfold Graph.replace at h
  by_cases hc : jsMapHas g.nodes (g.nodeIdentity v)
  · rw [if_neg (by simp [hc])] at h
    exact absurd h (by simp)
  · rw [if_pos (by simp [hc])] at h
    simp only [Except.error.injEq, Prod.mk.injEq] at h
    exact ⟨h.2.symm, h.1.symm⟩

theorem addEdge_error_state {g : JsGraph T} {a b : String} {e : JsErr} {g1 : JsGraph T}
    (h : Graph.addEdge g a b = .error (e, g1)) :
    g1 = g ∧ (e = .nodeDoesntExist a ∨ e = .nodeDoesntExist b) := by
  unfold Graph.addEdge at h
  by_cases ha : jsMapHas g.nodes a
  · rw [if_neg (by simp [ha])] at h
    by_cases hb : jsMapHas g.nodes b
    · rw [if_neg (by simp [hb])] at h
      exact absurd h (by simp)
    · rw [if_pos (by simp [hb])] at h
      simp only [Except.error.injEq, Prod.mk.injEq] at h
      exact ⟨h.2.symm, Or.inr h.1.symm⟩
  · rw [if_pos (by simp [ha])] at h
    simp only [Except.error.injEq, Prod.mk.injEq] at h
    exact ⟨h.2.symm, Or.inl h.1.symm⟩

theorem addEdge_ok_state {g : JsGraph T} {a b : String} {g1 : JsGraph T}
    (h : Graph.addEdge g a b = .ok g1) :
    g1.nodes = g.nodes ∧ g1.nodeIdentity = g.nodeIdentity ∧
    g1.hasCycle = g.hasCycle ∧ g1.topoCache = g.topoCache ∧
    g1.adjacency
      = matSet g.adjacency (jsIndexOf (keys g) a) (jsIndexOf (keys g) b) (some true) ∧
    jsMapHas g.nodes a = true ∧ jsMapHas g.nodes b = true := by
  unfold Graph.addEdge at h
  by_cases ha : jsMapHas g.nodes a
  · rw [if_neg (by simp [ha])] at h
    by_cases hb : jsMapHas g.nodes b
    · rw [if_neg (by simp [hb])] at h
      simp only [Except.ok.injEq] at h
      subst h
      exact ⟨rfl, rfl, rfl, rfl, rfl, ha, hb⟩
    · rw [if_pos (by simp [hb])] at h
      exact absurd h (by simp)
  · rw [if_pos (by simp [ha])] at h
    exact absurd h (by simp)

theorem isAcyclicF_fields {g : JsGraph T} {fuel : Nat} {b : Bool} {g1 : JsGraph T}
    (h : isAcyclicF g fuel = some (b, g1)) :
    g1.nodes = g.nodes ∧ g1.adjacency = g.adjacency ∧
    g1.nodeIdentity = g.nodeIdentity ∧ g1.topoCache = g.topoCache := by
  unfold isAcyclicF at h
  split at h
  · simp only [Option.some.injEq, Prod.mk.injEq] at h
    rw [← h.2]
    exact ⟨rfl, rfl, rfl, rfl⟩
  · dsimp only at h
    split at h
    · exact absurd h (by simp)
    · simp only [Option.some.injEq, Prod.mk.injEq] at h
      rw [← h.2]
      exact ⟨rfl, rfl, rfl, rfl⟩

theorem directed_addEdge_error_state {g : JsGraph T} {fuel : Nat} {a b : String} {skip : Bool}
    {e : JsErr} {g1 : JsGraph T}
    (h : DirectedGraph.addEdgeF g fuel a b skip = some (.error (e, g1))) :
    g1.nodes = g.nodes ∧ g1.adjacency = g.adjacency := by
  unfold DirectedGraph.addEdgeF at h
  by_cases h1 : (!(g.hasCycle.getD false) && !skip) = true
  · rw [if_pos h1] at h
    cases hw : wouldAddingEdgeCreateCyleF g fuel a b with
    | none => rw [hw] at h; exact absurd h (by simp)
    | some r =>
      rw [hw] at h
      cases r with
      | error e2 =>
        simp only [Option.some.injEq, Except.error.injEq, Prod.mk.injEq] at h
        rw [← h.2]
        exact ⟨rfl, rfl⟩
      | ok bb =>
        simp only [Option.some.injEq] at h
        have := (addEdge_error_state h).1
        rw [this]
        exact ⟨rfl, rfl⟩
  · rw [if_neg h1] at h
    by_cases h2 : skip = true
    · rw [if_pos h2] at h
      simp only [Option.some.injEq] at h
      have := (addEdge_error_state h).1
      rw [this]
      exact ⟨rfl, rfl⟩
    · rw [if_neg h2] at h
      simp only [Option.some.injEq] at h
      have := (addEdge_error_state h).1
      rw [this]
      exact ⟨rfl, rfl⟩

theorem dag_addEdge_error_state {g : JsGraph T} {fuel : Nat} {a b : String}
    {e : JsErr} {g1 : JsGraph T}
    (h : DirectedAcyclicGraph.addEdgeF g fuel a b = some (.error (e, g1))) :
    g1.nodes = g.nodes ∧ g1.adjacency = g.adjacency := by
  unfold DirectedAcyclicGraph.addEdgeF at h
  split at h
  · exact absurd h (by simp)
  · simp only [Option.some.injEq, Except.error.injEq, Prod.mk.injEq] at h
    rw [← h.2]
    exact ⟨rfl, rfl⟩
  · simp only [Option.some.injEq, Except.error.injEq, Prod.mk.injEq] at h
    rw [← h.2]
    exact ⟨rfl, rfl⟩
  · have h2 := directed_addEdge_error_state h
    exact h2

theorem dag_insert_error_state {g : JsGraph T} {v : T} {e : JsErr} {g1 : JsGraph T}
    (h : DirectedAcyclicGraph.insert g v = .error (e, g1)) :
    g1.nodes = g.nodes ∧ g1.adjacency = g.adjacency := by
  unfold DirectedAcyclicGraph.insert at h
  dsimp only at h
  split at h
  case h_1 cached hc =>
    have := (insert_error_state h).1
    rw [this]
    exact ⟨rfl, rfl⟩
  case h_2 hc =>
    have := (insert_error_state h).1
    rw [this]
    exact ⟨rfl, rfl⟩

theorem subGraph_error_state {g : JsGraph T} {fuel : Nat} {s : String}
    {e : JsErr} {g1 : JsGraph T}
    (h : DirectedGraph.getSubGraphStartingFromF g fuel s = some (.error (e, g1))) :
    g1 = g := by
  unfold DirectedGraph.getSubGraphStartingFromF at h
  split at h
  · simp only [Option.some.injEq, Except.error.injEq, Prod.mk.injEq] at h
    exact h.2.symm
  · dsimp only at h
    split at h
    · exact absurd h (by simp)
    · split at h
      · simp only [Option.some.injEq, Except.error.injEq, Prod.mk.injEq] at h
        exact h.2.symm
      · exact absurd h (by simp)

theorem fromDirectedGraph_error_state {hash : T → String} {g : JsGraph T} {fuel : Nat}
    {e : JsErr} {g1 : JsGraph T}
    (h : fromDirectedGraphF hash g fuel = some (.error (e, g1))) :
    g1.nodes = g.nodes ∧ g1.adjacency = g.adjacency := by
  unfold fromDirectedGraphF at h
  split at h
  · exact absurd h (by simp)
  case h_2 acyclic g2 heq =>
    split at h
    · simp only [Option.some.injEq, Except.error.injEq, Prod.mk.injEq] at h
      rw [← h.2]
      exact ⟨(isAcyclicF_fields heq).1, (isAcyclicF_fields heq).2.1⟩
    · exact absurd h (by simp)

/-- Claim C5, amended: a failed call never changes the node store or the
adjacency matrix (all endpoint and duplicate validation happens before
those are touched), for every operation of every tier.  What a failed
call can change are the cache fields, as the counterexample shows. -/
theorem failed_calls_leave_nodes_and_matrix_unchanged :
    (∀ (g : JsGraph T) v e g1, Graph.insert g v = .error (e, g1) → g1 = g) ∧
    (∀ (g : JsGraph T) v e g1, Graph.replace g v = .error (e, g1) → g1 = g) ∧
    (∀ (g : JsGraph T) a b e g1, Graph.addEdge g a b = .error (e, g1) → g1 = g) ∧
    (∀ (g : JsGraph T) fuel a b skip e g1,
      DirectedGraph.addEdgeF g fuel a b skip = some (.error (e, g1)) →
        g1.nodes = g.nodes ∧ g1.adjacency = g.adjacency) ∧
    (∀ (g : JsGraph T) fuel a b e g1,
      DirectedAcyclicGraph.addEdgeF g fuel a b = some (.error (e, g1)) →
        g1.nodes = g.nodes ∧ g1.adjacency = g.adjacency) ∧
    (∀ (g : JsGraph T) v e g1, DirectedAcyclicGraph.insert g v = .error (e, g1) →
        g1.nodes = g.nodes ∧ g1.adjacency = g.adjacency) ∧
    (∀ (g : JsGraph T) fuel s e g1,
      DirectedGraph.getSubGraphStartingFromF g fuel s = some (.error (e, g1)) → g1 = g) ∧
    (∀ (hash : T → String) (g : JsGraph T) fuel e g1,
      fromDirectedGraphF hash g fuel = some (.error (e, g1)) →
        g1.nodes = g.nodes ∧ g1.adjacency = g.adjacency) := by
  refine ⟨?_, ?_, ?_, ?_, ?_, ?_, ?_, ?_⟩
  · intro g v e g1 h
    exact (insert_error_state h).1
  · intro g v e g1 h
    exact (replace_error_state h).1
  · intro g a b e g1 h
    exact (addEdge_error_state h).1
  · intro g fuel a b skip e g1 h
    exact directed_addEdge_error_state h
  · intro g fuel a b e g1 h
    exact dag_addEdge_error_state h
  · intro g v e g1 h
    exact dag_insert_error_state h
  · intro g fuel s e g1 h
    exact subGraph_error_state h
  · intro hash g fuel e g1 h
    exact fromDirectedGraph_error_state h

/-- Witness for the amended claim C5, applied to the concrete failing
duplicate insert on the warm-cached DAG of the counterexample: the node
store and matrix of the post-state are those of `warmDAG`. -/
theorem failed_calls_leave_nodes_and_matrix_unchanged_witness :
    ∃ e g1, DirectedAcyclicGraph.insert warmDAG "A" = .error (e, g1) ∧
      g1.nodes = warmDAG.nodes ∧ g1.adjacency = warmDAG.adjacency := by
  refine ⟨.nodeAlreadyExists "A", warmDAGFailed, rfl, ?_⟩
  exact (failed_calls_leave_nodes_and_matrix_unchanged (T := String)).2.2.2.2.2.1
    warmDAG "A" (.nodeAlreadyExists "A") warmDAGFailed rfl

/-! ## Claim C6 (amended theorem): endpoint validation at the base tier -/

/-- Claim C6, amended: at the base `Graph` tier, `addEdge` validates the
endpoints in order (from, then to) before any mutation, fails with
`NodeDoesntExist` naming the missing endpoint, and on success sets
exactly the cell `matrix[ordinal(from)][ordinal(to)]` to 1, leaving every
other cell and the node store unchanged.  At the `DirectedGraph` and
`DirectedAcyclicGraph` tiers this holds only when the eager cycle check
does not run first (`skipUpdatingCyclicality`, a known-cyclic cache, or
`from == to`); otherwise a missing endpoint reaches
`canReachFrom(to, from)`, which throws `TypeError` instead — see the
counterexample. -/
theorem graph_addEdge_validates_then_sets_cell (g : JsGraph T) (a b : String) :
    (jsMapHas g.nodes a = false → Graph.addEdge g a b = .error (.nodeDoesntExist a, g)) ∧
    (jsMapHas g.nodes a = true → jsMapHas g.nodes b = false →
      Graph.addEdge g a b = .error (.nodeDoesntExist b, g)) ∧
    (WF g → jsMapHas g.nodes a = true → jsMapHas g.nodes b = true →
      ∃ (g1 : JsGraph T) (i j : Nat),
        Graph.addEdge g a b = .ok g1 ∧
        jsIndexOf (keys g) a = (i : Int) ∧ jsIndexOf (keys g) b = (j : Int) ∧
        matRead g1.adjacency i j = true ∧
        (∀ i2 j2 : Nat, ¬(i2 = i ∧ j2 = j) →
          matRead g1.adjacency i2 j2 = matRead g.adjacency i2 j2) ∧
        g1.nodes = g.nodes ∧ g1.hasCycle = g.hasCycle ∧ g1.topoCache = g.topoCache) := by
  refine ⟨?_, ?_, ?_⟩
  · intro ha
    unfold Graph.addEdge
    rw [if_pos (by simp [ha])]
  · intro ha hb
    unfold Graph.addEdge
    rw [if_neg (by simp [ha]), if_pos (by simp [hb])]
  · intro hwf ha hb
    have hamem : a ∈ keys g := jsMapHas_iff_mem.mp ha
    have hbmem : b ∈ keys g := jsMapHas_iff_mem.mp hb
    rcases jsIndexOf_spec_of_mem hamem with ⟨i, hia, hilt, _⟩
    rcases jsIndexOf_spec_of_mem hbmem with ⟨j, hjb, hjlt, _⟩
    have hklen : (keys g).length = g.nodes.length := List.length_map _ _
    have hrow : ∃ row, g.adjacency[i]? = some row ∧ row.length = g.nodes.length := by
      have hi2 : i < g.adjacency.length := by rw [hwf.2.1]; omega
      exact ⟨g.adjacency.get ⟨i, hi2⟩, List.getElem?_eq_getElem hi2,
        hwf.2.2 _ (List.getElem_mem hi2)⟩
    rcases hrow with ⟨row, hrow, hrlen⟩
    refine ⟨{ g with
        adjacency := matSet g.adjacency (jsIndexOf (keys g) a) (jsIndexOf (keys g) b)
            (some true) },
      i, j, ?_, hia, hjb, ?_, ?_, rfl, rfl, rfl⟩
    · unfold Graph.addEdge
      rw [if_neg (by simp [ha]), if_neg (by simp [hb])]
    · show matRead (matSet g.adjacency (jsIndexOf (keys g) a) (jsIndexOf (keys g) b)
        (some true)) i j = true
      rw [hia, hjb]
      rw [matSet_read_self hrow (by omega)]
      rfl
    · intro i2 j2 hne
      show matRead (matSet g.adjacency (jsIndexOf (keys g) a) (jsIndexOf (keys g) b)
        (some true)) i2 j2 = matRead g.adjacency i2 j2
      rw [hia, hjb]
      apply matSet_read_other
      rintro ⟨h1, h2⟩
      exact hne ⟨by omega, by omega⟩

/-- Witness for the amended claim C6 at concrete inputs: on `subTestDG`
(nodes A, B, C), the base `addEdge("A", "C")` succeeds and sets exactly
cell (0, 2), and `addEdge("Q", "A")` fails with `NodeDoesntExist`
naming Q. -/
theorem graph_addEdge_validates_then_sets_cell_witness :
    Graph.addEdge subTestDG "Q" "A" = .error (.nodeDoesntExist "Q", subTestDG) ∧
    ∃ (g1 : JsGraph String) (i j : Nat),
      Graph.addEdge subTestDG "A" "C" = .ok g1 ∧
      jsIndexOf (keys subTestDG) "A" = (i : Int) ∧ jsIndexOf (keys subTestDG) "C" = (j : Int) ∧
      matRead g1.adjacency i j = true ∧
      (∀ i2 j2 : Nat, ¬(i2 = i ∧ j2 = j) →
        matRead g1.adjacency i2 j2 = matRead subTestDG.adjacency i2 j2) := by
  constructor
  · exact (graph_addEdge_validates_then_sets_cell subTestDG "Q" "A").1 (by decide)
  · rcases (graph_addEdge_validates_then_sets_cell subTestDG "A" "C").2.2
      (by decide) (by decide) (by decide) with ⟨g1, i, j, h1, h2, h3, h4, h5, _⟩
    exact ⟨g1, i, j, h1, h2, h3, h4, h5⟩

/-! ## Claim C8: matrix growth and ordinal stability -/

theorem insert_ok_state {g : JsGraph T} {v : T} {r : String} {g1 : JsGraph T}
    (h : Graph.insert g v = .ok (r, g1)) :
    r = g.nodeIdentity v ∧ jsMapHas g.nodes r = false ∧
    g1.nodes = g.nodes ++ [(r, v)] ∧
    g1.adjacency = (g.adjacency.map (fun adj => adj ++ [some false]))
      ++ [List.replicate (g.adjacency.length + 1) none] ∧
    g1.nodeIdentity = g.nodeIdentity ∧ g1.hasCycle = g.hasCycle ∧
    g1.topoCache = g.topoCache := by
  unfold Graph.insert at h
  by_cases hc : jsMapHas g.nodes (g.nodeIdentity v)
  · rw [if_pos hc] at h
    exact absurd h (by simp)
  · rw [if_neg hc] at h
    simp only [Except.ok.injEq, Prod.mk.injEq] at h
    rcases h with ⟨hr, hg⟩
    subst hr
    rw [← hg]
    exact ⟨rfl, Bool.eq_false_iff.mpr hc, rfl, rfl, rfl, rfl, rfl⟩

theorem WF_insert {g : JsGraph T} (hwf : WF g) {v : T} {r : String} {g1 : JsGraph T}
    (h : Graph.insert g v = .ok (r, g1)) :
    WF g1 ∧ keys g1 = keys g ++ [r] := by
  rcases insert_ok_state h with ⟨_, hfresh, hnodes, hadj, _, _, _⟩
  have hkeys : keys g1 = keys g ++ [r] := by
    unfold keys
    rw [hnodes, List.map_append]
    rfl
  have hnotmem : r ∉ keys g := jsMapHas_eq_false_iff.mp hfresh
  refine ⟨⟨?_, ?_, ?_⟩, hkeys⟩
  · rw [hkeys]
    exact List.Nodup.append hwf.1 (List.nodup_singleton r)
      (fun x hx hmem => hnotmem (by rcases List.mem_singleton.mp hmem with rfl; exact hx))
  · rw [hadj, hnodes]
    simp only [List.length_append, List.length_map, List.length_replicate,
      List.length_singleton]
    rw [hwf.2.1]
  · rw [hadj, hnodes]
    intro row hrow
    rcases List.mem_append.mp hrow with hm | hm
    · rcases List.mem_map.mp hm with ⟨adj, hadjmem, rfl⟩
      rw [List.length_append, hwf.2.2 adj hadjmem]
      simp
    · rcases List.mem_singleton.mp hm with rfl
      rw [List.length_replicate, hwf.2.1]
      simp

theorem insert_new_row_reads_false {g : JsGraph T} (hwf : WF g) {v : T} {r : String}
    {g1 : JsGraph T} (h : Graph.insert g v = .ok (r, g1)) (j : Nat) :
    matRead g1.adjacency g.nodes.length j = false := by
  rcases insert_ok_state h with ⟨_, _, _, hadj, _, _, _⟩
  rw [hadj]
  unfold matRead
  rw [List.getElem?_append_right (by rw [List.length_map, hwf.2.1])]
  rw [List.length_map, hwf.2.1, Nat.sub_self]
  simp only [List.getElem?_cons_zero, Option.some_bind]
  rw [List.getElem?_replicate]
  split
  · rfl
  · rfl

theorem insert_preserves_cells {g : JsGraph T} (hwf : WF g) {v : T} {r : String}
    {g1 : JsGraph T} (h : Graph.insert g v = .ok (r, g1)) {i : Nat}
    (hi : i < g.nodes.length) (j : Nat) :
    matRead g1.adjacency i j = matRead g.adjacency i j := by
  rcases insert_ok_state h with ⟨_, _, _, hadj, _, _, _⟩
  rw [hadj]
  unfold matRead
  have hi2 : i < g.adjacency.length := by rw [hwf.2.1]; omega
  rw [List.getElem?_append_left (by rw [List.length_map]; omega)]
  rw [List.getElem?_map, List.getElem?_eq_getElem hi2]
  simp only [Option.map_some', Option.some_bind]
  exact cellRead_append_zero _ j

theorem upsert_existing_state {g : JsGraph T} {v : T} (hc : jsMapHas g.nodes (g.nodeIdentity v) = true) :
    Graph.upsert g v
      = (g.nodeIdentity v, { g with nodes := jsMapSet g.nodes (g.nodeIdentity v) v }) := by
  unfold Graph.upsert
  rw [if_neg (by simp [hc])]

theorem upsert_fresh_state {g : JsGraph T} {v : T} (hc : jsMapHas g.nodes (g.nodeIdentity v) = false) :
    Graph.upsert g v
      = (g.nodeIdentity v,
          { g with
            nodes := jsMapSet g.nodes (g.nodeIdentity v) v,
            adjacency := (g.adjacency.map (fun adj => adj ++ [some false]))
                ++ [List.replicate (g.adjacency.length + 1) none] }) := by
  unfold Graph.upsert
  rw [if_pos (by simp [hc])]

theorem jsMapSet_eq_append_of_not_mem {m : List (String × T)} {k : String}
    (h : k ∉ m.map (fun p => p.1)) (v : T) : jsMapSet m k v = m ++ [(k, v)] := by
  induction m with
  | nil => rfl
  | cons p rest ih =>
    rcases p with ⟨k0, v0⟩
    have hp : k0 ≠ k := fun hc => h (by simp [hc])
    have hr : k ∉ rest.map (fun p => p.1) := fun hc => h (by simp [hc])
    simp only [jsMapSet]
    rw [if_neg (by simpa using hp), ih hr, List.cons_append]

theorem WF_replace {g : JsGraph T} (hwf : WF g) {v : T} {g1 : JsGraph T}
    (h : Graph.replace g v = .ok g1) :
    WF g1 ∧ keys g1 = keys g ∧ g1.adjacency = g.adjacency := by
  unfold Graph.replace at h
  by_cases hc : jsMapHas g.nodes (g.nodeIdentity v)
  · rw [if_neg (by simp [hc])] at h
    simp only [Except.ok.injEq] at h
    subst h
    have hkeys : keys { g with nodes := jsMapSet g.nodes (g.nodeIdentity v) v } = keys g :=
      jsMapSet_keys_of_mem (jsMapHas_iff_mem.mp hc) v
    have hlen : (jsMapSet g.nodes (g.nodeIdentity v) v).length = g.nodes.length := by
      have := congrArg List.length hkeys
      simpa [keys] using this
    exact ⟨⟨by rw [hkeys]; exact hwf.1, by rw [hlen]; exact hwf.2.1,
      fun row hrow => by rw [hlen]; exact hwf.2.2 row hrow⟩, hkeys, rfl⟩
  · rw [if_pos (by simp [hc])] at h
    exact absurd h (by simp)

theorem WF_addEdge {g : JsGraph T} (hwf : WF g) {a b : String} {g1 : JsGraph T}
    (h : Graph.addEdge g a b = .ok g1) : WF g1 ∧ keys g1 = keys g := by
  rcases addEdge_ok_state h with ⟨hn, _, _, _, hadj, _, _⟩
  have hkeys : keys g1 = keys g := by unfold keys; rw [hn]
  refine ⟨⟨by rw [hkeys]; exact hwf.1, ?_, ?_⟩, hkeys⟩
  · rw [hadj, hn, matSet_length]
    exact hwf.2.1
  · rw [hadj, hn]
    exact matSet_row_length hwf.2.2 _ _ _

theorem WF_upsert {g : JsGraph T} (hwf : WF g) {v : T} {r : String} {g1 : JsGraph T}
    (h : Graph.upsert g v = (r, g1)) :
    WF g1 ∧
      (keys g1 = keys g ∧ g1.adjacency = g.adjacency ∨
        keys g1 = keys g ++ [r] ∧
        (∀ i j, i < g.nodes.length → matRead g1.adjacency i j = matRead g.adjacency i j) ∧
        (∀ j, matRead g1.adjacency g.nodes.length j = false)) := by
  by_cases hc : jsMapHas g.nodes (g.nodeIdentity v)
  · rw [upsert_existing_state hc] at h
    simp only [Prod.mk.injEq] at h
    rcases h with ⟨hr, hg⟩
    subst hg
    have hkeys : keys { g with nodes := jsMapSet g.nodes (g.nodeIdentity v) v } = keys g :=
      jsMapSet_keys_of_mem (jsMapHas_iff_mem.mp hc) v
    have hlen : (jsMapSet g.nodes (g.nodeIdentity v) v).length = g.nodes.length := by
      have := congrArg List.length hkeys
      simpa [keys] using this
    exact ⟨⟨by rw [hkeys]; exact hwf.1, by rw [hlen]; exact hwf.2.1,
      fun row hrow => by rw [hlen]; exact hwf.2.2 row hrow⟩, Or.inl ⟨hkeys, rfl⟩⟩
  · rw [upsert_fresh_state (Bool.eq_false_iff.mpr hc)] at h
    simp only [Prod.mk.injEq] at h
    rcases h with ⟨hr, hg⟩
    have hnm : g.nodeIdentity v ∉ keys g := jsMapHas_eq_false_iff.mp (Bool.eq_false_iff.mpr hc)
    have hset : jsMapSet g.nodes (g.nodeIdentity v) v = g.nodes ++ [(g.nodeIdentity v, v)] :=
      jsMapSet_eq_append_of_not_mem hnm v
    have hins : Graph.insert g v = .ok (g.nodeIdentity v, g1) := by
      unfold Graph.insert
      rw [if_neg hc, ← hg, hset]
    rcases WF_insert hwf hins with ⟨hwf1, hkeys1⟩
    subst hr
    refine ⟨hwf1, Or.inr ⟨hkeys1, ?_, ?_⟩⟩
    · intro i j hi
      exact insert_preserves_cells hwf hins hi j
    · intro j
      exact insert_new_row_reads_false hwf hins j

theorem WF_directed_addEdge {g : JsGraph T} (hwf : WF g) {fuel : Nat} {a b : String}
    {skip : Bool} {g1 : JsGraph T}
    (h : DirectedGraph.addEdgeF g fuel a b skip = some (.ok g1)) :
    WF g1 ∧ keys g1 = keys g := by
  unfold DirectedGraph.addEdgeF at h
  by_cases h1 : (!(g.hasCycle.getD false) && !skip) = true
  · rw [if_pos h1] at h
    cases hw : wouldAddingEdgeCreateCyleF g fuel a b with
    | none => rw [hw] at h; exact absurd h (by simp)
    | some r =>
      rw [hw] at h
      cases r with
      | error e2 => exact absurd h (by simp)
      | ok bb =>
        simp only [Option.some.injEq] at h
        have h2 := WF_addEdge (g := { g with hasCycle := some bb }) hwf h
        exact h2
  · rw [if_neg h1] at h
    by_cases h2 : skip = true
    · rw [if_pos h2] at h
      simp only [Option.some.injEq] at h
      have h3 := WF_addEdge (g := { g with hasCycle := none }) hwf h
      exact h3
    · rw [if_neg h2] at h
      simp only [Option.some.injEq] at h
      exact WF_addEdge hwf h

/-- Claim C8: after every successful mutation the adjacency matrix is
square with dimension the node count; `insert` on a fresh identity
appends a zero column to every existing row and a new row whose every
cell reads as zero, sized to the new node count; and no operation
shrinks, reorders or reassigns existing rows or columns — the key list
is preserved (or extended at the end) and every cell of the old region
is preserved by the node operations. -/
theorem mutations_keep_matrix_square :
    (∀ (g : JsGraph T) v r g1, WF g → Graph.insert g v = .ok (r, g1) →
      WF g1 ∧ keys g1 = keys g ++ [r] ∧
      g1.adjacency = (g.adjacency.map (fun adj => adj ++ [some false]))
        ++ [List.replicate (g.adjacency.length + 1) none] ∧
      (∀ j, matRead g1.adjacency g.nodes.length j = false) ∧
      (∀ i j, i < g.nodes.length → matRead g1.adjacency i j = matRead g.adjacency i j)) ∧
    (∀ (g : JsGraph T) v g1, WF g → Graph.replace g v = .ok g1 →
      WF g1 ∧ keys g1 = keys g ∧ g1.adjacency = g.adjacency) ∧
    (∀ (g : JsGraph T) v r g1, WF g → Graph.upsert g v = (r, g1) →
      WF g1 ∧
        (keys g1 = keys g ∧ g1.adjacency = g.adjacency ∨
          keys g1 = keys g ++ [r] ∧
          (∀ i j, i < g.nodes.length → matRead g1.adjacency i j = matRead g.adjacency i j) ∧
          (∀ j, matRead g1.adjacency g.nodes.length j = false))) ∧
    (∀ (g : JsGraph T) a b g1, WF g → Graph.addEdge g a b = .ok g1 →
      WF g1 ∧ keys g1 = keys g) ∧
    (∀ (g : JsGraph T) fuel a b skip g1, WF g →
      DirectedGraph.addEdgeF g fuel a b skip = some (.ok g1) → WF g1 ∧ keys g1 = keys g) ∧
    (∀ (g : JsGraph T) fuel a b g1, WF g →
      DirectedAcyclicGraph.addEdgeF g fuel a b = some (.ok g1) → WF g1 ∧ keys g1 = keys g) ∧
    (∀ (g : JsGraph T) v r g1, WF g → DirectedAcyclicGraph.insert g v = .ok (r, g1) →
      WF g1 ∧ keys g1 = keys g ++ [r]) := by
  refine ⟨?_, ?_, ?_, ?_, ?_, ?_, ?_⟩
  · intro g v r g1 hwf h
    rcases insert_ok_state h with ⟨_, _, _, hadj, _, _, _⟩
    exact ⟨(WF_insert hwf h).1, (WF_insert hwf h).2, hadj,
      insert_new_row_reads_false hwf h, fun i j hi => insert_preserves_cells hwf h hi j⟩
  · intro g v g1 hwf h
    exact WF_replace hwf h
  · intro g v r g1 hwf h
    exact WF_upsert hwf h
  · intro g a b g1 hwf h
    exact WF_addEdge hwf h
  · intro g fuel a b skip g1 hwf h
    exact WF_directed_addEdge hwf h
  · intro g fuel a b g1 hwf h
    unfold DirectedAcyclicGraph.addEdgeF at h
    split at h
    · exact absurd h (by simp)
    · exact absurd h (by simp)
    · exact absurd h (by simp)
    · have h2 := WF_directed_addEdge (g := { g with topoCache := none }) hwf h
      exact h2
  · intro g v r g1 hwf h
    unfold DirectedAcyclicGraph.insert at h
    dsimp only at h
    split at h
    case h_1 cached hc =>
      have h2 := WF_insert (g := { g with topoCache := some (v :: cached) }) hwf h
      exact h2
    case h_2 hc =>
      exact WF_insert hwf h

/-- Witness for claim C8: inserting the fresh node D into the concrete
three-node graph keeps the matrix square, appends its key at the end,
and the new row reads as all zeroes. -/
theorem mutations_keep_matrix_square_witness :
    WF (okInsert subTestDG "D") ∧ keys (okInsert subTestDG "D") = ["A", "B", "C", "D"] ∧
      matRead (okInsert subTestDG "D").adjacency 3 0 = false := by
  have h : Graph.insert subTestDG "D" = .ok ("D", okInsert subTestDG "D") := rfl
  rcases (mutations_keep_matrix_square (T := String)).1 subTestDG "D" "D" _ (by decide) h
    with ⟨hwf1, hkeys, _, hrow, _⟩
  exact ⟨hwf1, by rw [hkeys]; rfl, hrow 0⟩

/-! ## Claim C9: `fromDirectedGraph` re-keys to the default identity -/

theorem fromDirectedGraph_ok_state {hash : T → String} {g : JsGraph T} {fuel : Nat}
    {dag g1 : JsGraph T} (h : fromDirectedGraphF hash g fuel = some (.ok (dag, g1))) :
    dag.nodeIdentity = hash ∧ dag.nodes = g.nodes ∧ dag.adjacency = g.adjacency ∧
    dag.hasCycle = some false ∧ dag.topoCache = none := by
  unfold fromDirectedGraphF at h
  split at h
  · exact absurd h (by simp)
  case h_2 acyclic g2 heq =>
    split at h
    · exact absurd h (by simp)
    · simp only [Option.some.injEq, Except.ok.injEq, Prod.mk.injEq] at h
      rw [← h.1]
      refine ⟨rfl, ?_, ?_, rfl, rfl⟩
      · show g2.nodes = g.nodes
        exact (isAcyclicF_fields heq).1
      · show g2.adjacency = g.adjacency
        exact (isAcyclicF_fields heq).2.1

/-- Claim C9: the DAG built by `fromDirectedGraph` carries the source's
node store and matrix but is constructed by `new DirectedAcyclicGraph<T>()`
with the *default* identity function `hash`, not the source graph's; the
DAG returned by `DirectedAcyclicGraph.getSubGraphStartingFrom` is built
the same way; and a later `insert` on such a DAG therefore keys the new
node by `hash`. -/
theorem fromDirectedGraph_uses_default_identity (hash : T → String) :
    (∀ (g : JsGraph T) fuel dag g1, fromDirectedGraphF hash g fuel = some (.ok (dag, g1)) →
      dag.nodeIdentity = hash ∧ dag.nodes = g.nodes ∧ dag.adjacency = g.adjacency) ∧
    (∀ (g : JsGraph T) fuel s dag g1,
      DirectedAcyclicGraph.getSubGraphStartingFromF hash g fuel s = some (.ok (dag, g1)) →
      dag.nodeIdentity = hash) ∧
    (∀ (g : JsGraph T) fuel dag g1 v r g2,
      fromDirectedGraphF hash g fuel = some (.ok (dag, g1)) →
      Graph.insert dag v = .ok (r, g2) →
      r = hash v ∧ g2.nodes = dag.nodes ++ [(hash v, v)]) := by
  refine ⟨?_, ?_, ?_⟩
  · intro g fuel dag g1 h
    rcases fromDirectedGraph_ok_state h with ⟨h1, h2, h3, _, _⟩
    exact ⟨h1, h2, h3⟩
  · intro g fuel s dag g1 h
    unfold DirectedAcyclicGraph.getSubGraphStartingFromF at h
    split at h
    · exact absurd h (by simp)
    · exact absurd h (by simp)
    case h_3 sub g2 heq =>
      split at h
      · exact absurd h (by simp)
      · exact absurd h (by simp)
      case h_3 dag2 sub2 heq2 =>
        simp only [Option.some.injEq, Except.ok.injEq, Prod.mk.injEq] at h
        rw [← h.1]
        exact (fromDirectedGraph_ok_state heq2).1
  · intro g fuel dag g1 v r g2 h hins
    rcases fromDirectedGraph_ok_state h with ⟨h1, _, _, _, _⟩
    rcases insert_ok_state hins with ⟨hr, _, hnodes, _, _, _, _⟩
    rw [h1] at hr
    exact ⟨hr, by rw [hnodes, hr]⟩

/-- A source graph with a custom identity function (node value A has
identity AA). -/
def customDG : JsGraph String :=
  { nodes := [("AA", "A")], adjacency := [[none]], nodeIdentity := fun s => s ++ s,
    hasCycle := none, topoCache := none }

/-- Witness for claim C9: converting `customDG` with default hash `strId`
yields a DAG keyed by `strId` — the identity of the value A is now A, not
the AA the source graph would produce. -/
theorem fromDirectedGraph_uses_default_identity_witness :
    ∃ dag g1, fromDirectedGraphF strId customDG 9 = some (.ok (dag, g1)) ∧
      dag.nodeIdentity = strId ∧ dag.nodes = customDG.nodes ∧
      dag.nodeIdentity "A" = "A" ∧ customDG.nodeIdentity "A" = "AA" := by
  refine ⟨_, _, rfl, ?_⟩
  have h := (fromDirectedGraph_uses_default_identity strId).1 customDG 9 _ _ rfl
  exact ⟨h.1, h.2.1, by rw [h.1]; rfl, rfl⟩

/-! ## Lemmas about the reachability search -/

theorem edgeB_spec {g : JsGraph T} {i j : Nat} (h : edgeB g i j = true) :
    ∃ row, g.adjacency[i]? = some row ∧ row[j]? = some (some true) := by
  unfold edgeB matRead at h
  cases hi : g.adjacency[i]? with
  | none => rw [hi] at h; exact absurd h (by simp [cellB])
  | some row =>
    rw [hi] at h
    simp only [Option.some_bind] at h
    cases hj : row[j]? with
    | none => rw [hj] at h; exact absurd h (by simp [cellB])
    | some c =>
      rw [hj] at h
      have hc : c = some true := by simpa [cellB, Option.join] using h
      exact ⟨row, rfl, by rw [hj, hc]⟩

theorem edgeB_of_cells {g : JsGraph T} {i j : Nat} {row : List Cell}
    (hi : g.adjacency[i]? = some row) (hj : row[j]? = some (some true)) :
    edgeB g i j = true := by
  unfold edgeB matRead
  rw [hi]
  simp only [Option.some_bind]
  rw [hj]
  rfl

theorem reduceRow_none (canNext : String → Option (Except JsErr Bool)) (ids : List String) :
    ∀ cells, reduceRow canNext ids cells none = none := by
  intro cells
  induction cells with
  | nil => rfl
  | cons pr rest ih =>
    rcases pr with ⟨idx, cell⟩
    cases cell with
    | none => exact ih
    | some e => rfl

theorem reduceRow_error (canNext : String → Option (Except JsErr Bool)) (ids : List String)
    (er : JsErr) : ∀ cells, reduceRow canNext ids cells (some (.error er)) = some (.error er) := by
  intro cells
  induction cells with
  | nil => rfl
  | cons pr rest ih =>
    rcases pr with ⟨idx, cell⟩
    cases cell with
    | none => exact ih
    | some e => rfl

theorem reduceRow_true (canNext : String → Option (Except JsErr Bool)) (ids : List String) :
    ∀ cells, reduceRow canNext ids cells (some (.ok true)) = some (.ok true) := by
  intro cells
  induction cells with
  | nil => rfl
  | cons pr rest ih =>
    rcases pr with ⟨idx, cell⟩
    cases cell with
    | none => exact ih
    | some e => simpa [reduceRow] using ih

theorem reduceRow_error_origin {canNext : String → Option (Except JsErr Bool)}
    {ids : List String} :
    ∀ {cells : List (Nat × Cell)} {carry : Option (Except JsErr Bool)} {er : JsErr},
      reduceRow canNext ids cells carry = some (.error er) →
      carry = some (.error er) ∨ er = .typeError ∨ ∃ k, canNext k = some (.error er) := by
  intro cells
  induction cells with
  | nil =>
    intro carry er h
    exact Or.inl h
  | cons pr rest ih =>
    rcases pr with ⟨idx, cell⟩
    intro carry er h
    cases cell with
    | none => exact ih h
    | some e =>
      match carry with
      | some (.ok c) =>
        by_cases hb : (c || !e) = true
        · rw [show reduceRow canNext ids ((idx, some e) :: rest) (some (.ok c))
              = reduceRow canNext ids rest (some (.ok c)) by
              simp [reduceRow, hb]] at h
          rcases ih h with hc | hc | hc
          · exact absurd hc (by simp)
          · exact Or.inr (Or.inl hc)
          · exact Or.inr (Or.inr hc)
        · cases hids : ids[idx]? with
          | none =>
            rw [show reduceRow canNext ids ((idx, some e) :: rest) (some (.ok c))
                = some (.error .typeError) by simp [reduceRow, hb, hids]] at h
            simp only [Option.some.injEq, Except.error.injEq] at h
            exact Or.inr (Or.inl h.symm)
          | some k =>
            rw [show reduceRow canNext ids ((idx, some e) :: rest) (some (.ok c))
                = reduceRow canNext ids rest (canNext k) by simp [reduceRow, hb, hids]] at h
            cases hcall : canNext k with
            | none => rw [hcall, reduceRow_none] at h; exact absurd h (by simp)
            | some rc =>
              rw [hcall] at h
              cases rc with
              | error e2 =>
                rw [reduceRow_error] at h
                simp only [Option.some.injEq, Except.error.injEq] at h
                subst h
                exact Or.inr (Or.inr ⟨k, hcall⟩)
              | ok b2 =>
                rcases ih h with hc | hc | hc
                · exact absurd hc (by simp)
                · exact Or.inr (Or.inl hc)
                · exact Or.inr (Or.inr hc)
      | some (.error e2) =>
        rw [show reduceRow canNext ids ((idx, some e) :: rest) (some (.error e2))
            = some (.error e2) from rfl] at h
        exact Or.inl h
      | none =>
        rw [show reduceRow canNext ids ((idx, some e) :: rest) none = none from rfl] at h
        exact absurd h (by simp)

theorem reduceRow_ok_form {canNext : String → Option (Except JsErr Bool)}
    {ids : List String} :
    ∀ {cells : List (Nat × Cell)} {cb : Bool} {r : Except JsErr Bool},
      (∀ idx, (idx, some true) ∈ cells →
        ∃ k, ids[idx]? = some k ∧ ∀ r2, canNext k = some r2 → ∃ b2, r2 = .ok b2) →
      reduceRow canNext ids cells (some (.ok cb)) = some r → ∃ b2, r = .ok b2 := by
  intro cells
  induction cells with
  | nil =>
    intro cb r _ h
    simp only [reduceRow, Option.some.injEq] at h
    exact ⟨cb, h.symm⟩
  | cons pr rest ih =>
    rcases pr with ⟨idx, cell⟩
    intro cb r hids h
    cases cell with
    | none =>
      exact ih (fun idx2 hmem => hids idx2 (List.mem_cons_of_mem _ hmem)) h
    | some e =>
      by_cases hb : (cb || !e) = true
      · rw [show reduceRow canNext ids ((idx, some e) :: rest) (some (.ok cb))
            = reduceRow canNext ids rest (some (.ok cb)) by simp [reduceRow, hb]] at h
        exact ih (fun idx2 hmem => hids idx2 (List.mem_cons_of_mem _ hmem)) h
      · have he : e = true := by
          cases e
          · exact absurd (by simp : (cb || !false) = true) hb
          · rfl
        subst he
        have hcb : cb = false := by
          cases cb
          · rfl
          · exact absurd (by simp) hb
        subst hcb
        rcases hids idx (List.mem_cons_self _ _) with ⟨k, hk, hcallok⟩
        rw [show reduceRow canNext ids ((idx, some true) :: rest) (some (.ok false))
            = reduceRow canNext ids rest (canNext k) by simp [reduceRow, hk]] at h
        cases hcall : canNext k with
        | none => rw [hcall, reduceRow_none] at h; exact absurd h (by simp)
        | some rc =>
          rw [hcall] at h
          rcases hcallok rc hcall with ⟨b2, hb2⟩
          subst hb2
          exact ih (fun idx2 hmem => hids idx2 (List.mem_cons_of_mem _ hmem)) h

theorem reduceRow_isSome {canNext : String → Option (Except JsErr Bool)}
    {ids : List String} :
    ∀ {cells : List (Nat × Cell)} {cb : Bool},
      (∀ idx k, (idx, some true) ∈ cells → ids[idx]? = some k → (canNext k).isSome) →
      (reduceRow canNext ids cells (some (.ok cb))).isSome := by
  intro cells
  induction cells with
  | nil =>
    intro cb _
    rfl
  | cons pr rest ih =>
    rcases pr with ⟨idx, cell⟩
    intro cb hcalls
    cases cell with
    | none => exact ih (fun idx2 k hmem => hcalls idx2 k (List.mem_cons_of_mem _ hmem))
    | some e =>
      by_cases hb : (cb || !e) = true
      · rw [show reduceRow canNext ids ((idx, some e) :: rest) (some (.ok cb))
            = reduceRow canNext ids rest (some (.ok cb)) by simp [reduceRow, hb]]
        exact ih (fun idx2 k hmem => hcalls idx2 k (List.mem_cons_of_mem _ hmem))
      · have he : e = true := by
          cases e
          · exact absurd (by simp : (cb || !false) = true) hb
          · rfl
        subst he
        have hcb : cb = false := by
          cases cb
          · rfl
          · exact absurd (by simp) hb
        subst hcb
        cases hk : ids[idx]? with
        | none =>
          rw [show reduceRow canNext ids ((idx, some true) :: rest) (some (.ok false))
              = some (.error .typeError) by simp [reduceRow, hk]]
          rfl
        | some k =>
          rw [show reduceRow canNext ids ((idx, some true) :: rest) (some (.ok false))
              = reduceRow canNext ids rest (canNext k) by simp [reduceRow, hk]]
          cases hcall : canNext k with
          | none =>
            have hks := hcalls idx k (List.mem_cons_self _ _) hk
            rw [hcall] at hks
            exact absurd hks (by simp)
          | some rc =>
            cases rc with
            | error e2 => rw [reduceRow_error]; rfl
            | ok b2 => exact ih (fun idx2 k2 hmem => hcalls idx2 k2 (List.mem_cons_of_mem _ hmem))

theorem reduceRow_mono {canNext1 canNext2 : String → Option (Except JsErr Bool)}
    {ids : List String}
    (hmono : ∀ k r, canNext1 k = some r → canNext2 k = some r) :
    ∀ {cells : List (Nat × Cell)} {carry : Option (Except JsErr Bool)} {r : Except JsErr Bool},
      reduceRow canNext1 ids cells carry = some r →
      reduceRow canNext2 ids cells carry = some r := by
  intro cells
  induction cells with
  | nil =>
    intro carry r h
    exact h
  | cons pr rest ih =>
    rcases pr with ⟨idx, cell⟩
    intro carry r h
    cases cell with
    | none => exact ih h
    | some e =>
      match carry with
      | some (.ok c) =>
        by_cases hb : (c || !e) = true
        · rw [show reduceRow canNext1 ids ((idx, some e) :: rest) (some (.ok c))
              = reduceRow canNext1 ids rest (some (.ok c)) by simp [reduceRow, hb]] at h
          rw [show reduceRow canNext2 ids ((idx, some e) :: rest) (some (.ok c))
              = reduceRow canNext2 ids rest (some (.ok c)) by simp [reduceRow, hb]]
          exact ih h
        · cases hk : ids[idx]? with
          | none =>
            rw [show reduceRow canNext1 ids ((idx, some e) :: rest) (some (.ok c))
                = some (.error .typeError) by simp [reduceRow, hb, hk]] at h
            rw [show reduceRow canNext2 ids ((idx, some e) :: rest) (some (.ok c))
                = some (.error .typeError) by simp [reduceRow, hb, hk]]
            exact h
          | some k =>
            rw [show reduceRow canNext1 ids ((idx, some e) :: rest) (some (.ok c))
                = reduceRow canNext1 ids rest (canNext1 k) by simp [reduceRow, hb, hk]] at h
            rw [show reduceRow canNext2 ids ((idx, some e) :: rest) (some (.ok c))
                = reduceRow canNext2 ids rest (canNext2 k) by simp [reduceRow, hb, hk]]
            cases hcall : canNext1 k with
            | none => rw [hcall, reduceRow_none] at h; exact absurd h (by simp)
            | some rc =>
              rw [hcall] at h
              rw [hmono k rc hcall]
              exact ih h
      | some (.error e2) => exact h
      | none =>
        rw [show reduceRow canNext1 ids ((idx, some e) :: rest) none = none from rfl] at h
        exact absurd h (by simp)

theorem reduceRow_reaches_true {canNext : String → Option (Except JsErr Bool)}
    {ids : List String} :
    ∀ {cells : List (Nat × Cell)} {r : Except JsErr Bool},
      (∀ idx, (idx, some true) ∈ cells →
        ∃ k, ids[idx]? = some k ∧ ∀ r2, canNext k = some r2 → ∃ b2, r2 = .ok b2) →
      (∃ idxt kt, (idxt, some true) ∈ cells ∧ ids[idxt]? = some kt ∧
        ∀ r2, canNext kt = some r2 → r2 = .ok true) →
      reduceRow canNext ids cells (some (.ok false)) = some r → r = .ok true := by
  intro cells
  induction cells with
  | nil =>
    intro r _ htgt _
    rcases htgt with ⟨_, _, hmem, _, _⟩
    cases hmem
  | cons pr rest ih =>
    rcases pr with ⟨idx, cell⟩
    intro r hids htgt h
    cases cell with
    | none =>
      refine ih (fun idx2 hmem => hids idx2 (List.mem_cons_of_mem _ hmem)) ?_ h
      rcases htgt with ⟨idxt, kt, hmem, hkt, hprop⟩
      rcases List.mem_cons.mp hmem with heq | hmem2
      · exact absurd heq (by simp)
      · exact ⟨idxt, kt, hmem2, hkt, hprop⟩
    | some e =>
      cases e with
      | false =>
        rw [show reduceRow canNext ids ((idx, some false) :: rest) (some (.ok false))
            = reduceRow canNext ids rest (some (.ok false)) by simp [reduceRow]] at h
        refine ih (fun idx2 hmem => hids idx2 (List.mem_cons_of_mem _ hmem)) ?_ h
        rcases htgt with ⟨idxt, kt, hmem, hkt, hprop⟩
        rcases List.mem_cons.mp hmem with heq | hmem2
        · exact absurd heq (by simp)
        · exact ⟨idxt, kt, hmem2, hkt, hprop⟩
      | true =>
        rcases hids idx (List.mem_cons_self _ _) with ⟨k, hk, hcallok⟩
        rw [show reduceRow canNext ids ((idx, some true) :: rest) (some (.ok false))
            = reduceRow canNext ids rest (canNext k) by simp [reduceRow, hk]] at h
        cases hcall : canNext k with
        | none => rw [hcall, reduceRow_none] at h; exact absurd h (by simp)
        | some rc =>
          rw [hcall] at h
          rcases hcallok rc hcall with ⟨b2, hb2⟩
          subst hb2
          cases b2 with
          | true =>
            rw [reduceRow_true] at h
            simp only [Option.some.injEq] at h
            exact h.symm
          | false =>
            refine ih (fun idx2 hmem => hids idx2 (List.mem_cons_of_mem _ hmem)) ?_ h
            rcases htgt with ⟨idxt, kt, hmem, hkt, hprop⟩
            rcases List.mem_cons.mp hmem with heq | hmem2
            · have hidx : idxt = idx := by
                have := congrArg Prod.fst heq
                simpa using this
              subst hidx
              have hkk : kt = k := by
                rw [hkt] at hk
                exact Option.some.inj hk
              subst hkk
              have := hprop (.ok false) hcall
              exact absurd this (by simp)
            · exact ⟨idxt, kt, hmem2, hkt, hprop⟩

theorem canReachF_succ_eq (g : JsGraph T) (fuel : Nat) (startNode endNode : String) :
    canReachF g (fuel + 1) startNode endNode =
      match jsGetInt g.adjacency (jsIndexOf (keys g) startNode) with
      | none => some (.error .typeError)
      | some row =>
        if cellB ((jsGetInt row (jsIndexOf (keys g) endNode)).join) then some (.ok true)
        else reduceRow (fun k => canReachF g fuel k endNode) (keys g) row.enum
          (some (.ok false)) := rfl

theorem canReachF_error_typeError {g : JsGraph T} :
    ∀ {fuel : Nat} {s e : String} {er : JsErr},
      canReachF g fuel s e = some (.error er) → er = .typeError := by
  intro fuel
  induction fuel with
  | zero =>
    intro s e er h
    exact absurd h (by simp [canReachF])
  | succ n ih =>
    intro s e er h
    rw [canReachF_succ_eq] at h
    cases hrow : jsGetInt g.adjacency (jsIndexOf (keys g) s) with
    | none =>
      rw [hrow] at h
      simp only [Option.some.injEq, Except.error.injEq] at h
      exact h.symm
    | some row =>
      rw [hrow] at h
      dsimp only at h
      by_cases hdir : cellB ((jsGetInt row (jsIndexOf (keys g) e)).join) = true
      · rw [if_pos hdir] at h
        exact absurd h (by simp)
      · rw [if_neg hdir] at h
        rcases reduceRow_error_origin h with hc | hc | hc
        · exact absurd hc (by simp)
        · exact hc
        · rcases hc with ⟨k, hk⟩
          exact ih hk

theorem canReachF_absent {g : JsGraph T} {s : String} (hs : s ∉ keys g)
    (fuel : Nat) (e : String) :
    jsIndexOf (keys g) s = -1 ∧ canReachF g (fuel + 1) s e = some (.error .typeError) := by
  have hidx : jsIndexOf (keys g) s = -1 := jsIndexOf_of_not_mem hs
  refine ⟨hidx, ?_⟩
  rw [canReachF_succ_eq, hidx, jsGetInt_neg _ (by norm_num)]

theorem canReachF_row {g : JsGraph T} (hwf : WF g) {s : String} (hs : s ∈ keys g) :
    ∃ (i : Nat) (row : List Cell), jsIndexOf (keys g) s = (i : Int) ∧
      i < (keys g).length ∧ (keys g)[i]? = some s ∧
      jsGetInt g.adjacency (jsIndexOf (keys g) s) = some row ∧
      g.adjacency[i]? = some row ∧ row.length = (keys g).length := by
  rcases jsIndexOf_spec_of_mem hs with ⟨i, hidx, hlt, hget⟩
  have hklen : (keys g).length = g.nodes.length := List.length_map _ _
  have hi2 : i < g.adjacency.length := by rw [hwf.2.1]; omega
  refine ⟨i, g.adjacency.get ⟨i, hi2⟩, hidx, hlt, hget, ?_, List.getElem?_eq_getElem hi2, ?_⟩
  · rw [hidx, jsGetInt_natCast, List.getElem?_eq_getElem hi2]
    rfl
  · rw [hklen]
    exact hwf.2.2 _ (List.getElem_mem hi2)

theorem canReachF_ok_of_mem {g : JsGraph T} (hwf : WF g) :
    ∀ {fuel : Nat} {s : String}, s ∈ keys g → ∀ {e : String} {r : Except JsErr Bool},
      canReachF g fuel s e = some r → ∃ b, r = .ok b := by
  intro fuel
  induction fuel with
  | zero =>
    intro s _ e r h
    exact absurd h (by simp [canReachF])
  | succ n ih =>
    intro s hs e r h
    rcases canReachF_row hwf hs with ⟨i, row, hidx, hlt, hget, hjs, hrow, hrlen⟩
    rw [canReachF_succ_eq, hjs] at h
    dsimp only at h
    by_cases hdir : cellB ((jsGetInt row (jsIndexOf (keys g) e)).join) = true
    · rw [if_pos hdir] at h
      simp only [Option.some.injEq] at h
      exact ⟨true, h.symm⟩
    · rw [if_neg hdir] at h
      refine reduceRow_ok_form ?_ h
      intro idx hmem
      have hcell : row[idx]? = some (some true) := List.mk_mem_enum_iff_getElem?.mp hmem
      have hidxlt : idx < row.length := (List.getElem?_eq_some.mp hcell).1
      have hkidx : idx < (keys g).length := by omega
      refine ⟨(keys g).get ⟨idx, hkidx⟩, List.getElem?_eq_getElem hkidx, ?_⟩
      intro r2 h2
      exact ih (List.getElem_mem hkidx) h2

theorem canReachF_mono {g : JsGraph T} :
    ∀ {fuel fuel2 : Nat}, fuel ≤ fuel2 → ∀ {s e : String} {r : Except JsErr Bool},
      canReachF g fuel s e = some r → canReachF g fuel2 s e = some r := by
  intro fuel
  induction fuel with
  | zero =>
    intro fuel2 _ s e r h
    exact absurd h (by simp [canReachF])
  | succ n ih =>
    intro fuel2 hle s e r h
    rcases Nat.exists_eq_add_of_le hle with ⟨d, hd⟩
    have hd2 : fuel2 = (n + d) + 1 := by omega
    subst hd2
    rw [canReachF_succ_eq] at h
    rw [canReachF_succ_eq]
    cases hrow : jsGetInt g.adjacency (jsIndexOf (keys g) s) with
    | none =>
      rw [hrow] at h
      exact h
    | some row =>
      rw [hrow] at h
      dsimp only at h ⊢
      by_cases hdir : cellB ((jsGetInt row (jsIndexOf (keys g) e)).join) = true
      · rw [if_pos hdir] at h
        rw [if_pos hdir]
        exact h
      · rw [if_neg hdir] at h
        rw [if_neg hdir]
        exact reduceRow_mono (fun k r2 h2 => ih (Nat.le_add_right n d) h2) h

theorem canReachF_terminates {g : JsGraph T} (hwf : WF g) (hacy : AcyclicMatrix g)
    {s : String} (hs : s ∈ keys g) (e : String) :
    ∃ F, ∀ fuel, F ≤ fuel → ∃ r, canReachF g fuel s e = some r := by
  classical
  have hmap : ∀ a b : Fin (keys g).length,
      Relation.TransGen (fun x y : Fin (keys g).length => edgeB g y.val x.val = true) a b →
      Relation.TransGen (edgeRel g) b.val a.val := by
    intro a b h
    induction h with
    | single h1 => exact Relation.TransGen.single h1
    | tail h1 h2 ih => exact Relation.TransGen.head h2 ih
  haveI : IsTrans (Fin (keys g).length)
      (Relation.TransGen (fun x y => edgeB g y.val x.val = true)) :=
    ⟨fun a b c h1 h2 => h1.trans h2⟩
  haveI : IsIrrefl (Fin (keys g).length)
      (Relation.TransGen (fun x y => edgeB g y.val x.val = true)) :=
    ⟨fun x hx => hacy x.val (hmap x x hx)⟩
  have hwftg := Finite.wellFounded_of_trans_of_irrefl
    (α := Fin (keys g).length)
    (Relation.TransGen (fun x y => edgeB g y.val x.val = true))
  have hsub : Subrelation (fun x y : Fin (keys g).length => edgeB g y.val x.val = true)
      (Relation.TransGen (fun x y : Fin (keys g).length => edgeB g y.val x.val = true)) := by
    intro a b h
    exact Relation.TransGen.single h
  have hwfr := Subrelation.wf hsub hwftg
  have main : ∀ x0 : Fin (keys g).length,
      ∃ F r0, canReachF g F ((keys g).get x0) e = some r0 := by
    intro x0
    refine hwfr.induction
      (C := fun x1 => ∃ F r0, canReachF g F ((keys g).get x1) e = some r0) x0 ?_
    intro x IH
    have hxget : (keys g)[x.val]? = some ((keys g).get x) := by
      rw [List.getElem?_eq_getElem x.isLt]
      rfl
    have hmem : (keys g).get x ∈ keys g := List.getElem?_mem hxget
    rcases canReachF_row hwf hmem with ⟨i, row, hidx, hlt, hget, hjs, hrow, hrlen⟩
    have hieq : i = x.val := by
      have h2 := jsIndexOf_of_nodup hwf.1 hxget
      rw [hidx] at h2
      exact_mod_cast h2
    subst hieq
    have aux : ∀ cells : List (Nat × Cell), (∀ p ∈ cells, p ∈ row.enum) →
        ∃ F, ∀ idx k, (idx, some true) ∈ cells → (keys g)[idx]? = some k →
          ∃ r0, canReachF g F k e = some r0 := by
      intro cells
      induction cells with
      | nil =>
        intro _
        exact ⟨0, fun idx k hmem2 _ => absurd hmem2 (by simp)⟩
      | cons pr rest ihc =>
        intro hsub
        rcases ihc (fun p hp => hsub p (List.mem_cons_of_mem _ hp)) with ⟨F1, hF1⟩
        rcases pr with ⟨idx0, c0⟩
        by_cases hc0 : c0 = some true
        · subst hc0
          have hmemrow : (idx0, (some true : Cell)) ∈ row.enum :=
            hsub _ (List.mem_cons_self _ _)
          have hcell : row[idx0]? = some (some true) :=
            List.mk_mem_enum_iff_getElem?.mp hmemrow
          have hidxlt : idx0 < row.length := (List.getElem?_eq_some.mp hcell).1
          have hidxn : idx0 < (keys g).length := by omega
          have hedge : edgeB g x.val idx0 = true := edgeB_of_cells hrow hcell
          rcases IH ⟨idx0, hidxn⟩ hedge with ⟨F2, r2, hF2⟩
          refine ⟨max F1 F2, ?_⟩
          intro idx k hmem2 hk
          rcases List.mem_cons.mp hmem2 with heq | hmem3
          · have hidx2 : idx = idx0 := by
              have := congrArg Prod.fst heq
              simpa using this
            subst hidx2
            have hkval : k = (keys g).get ⟨idx, hidxn⟩ := by
              rw [List.getElem?_eq_getElem hidxn] at hk
              exact (Option.some.inj hk).symm
            subst hkval
            exact ⟨r2, canReachF_mono (Nat.le_max_right F1 F2) hF2⟩
          · rcases hF1 idx k hmem3 hk with ⟨r0, h0⟩
            exact ⟨r0, canReachF_mono (Nat.le_max_left F1 F2) h0⟩
        · refine ⟨F1, ?_⟩
          intro idx k hmem2 hk
          rcases List.mem_cons.mp hmem2 with heq | hmem3
          · exact absurd (congrArg Prod.snd heq).symm (by simpa using hc0)
          · exact hF1 idx k hmem3 hk
    rcases aux row.enum (fun p hp => hp) with ⟨Faux, hFaux⟩
    refine ⟨Faux + 1, ?_⟩
    rw [canReachF_succ_eq, hjs]
    dsimp only
    by_cases hdir : cellB ((jsGetInt row (jsIndexOf (keys g) e)).join) = true
    · rw [if_pos hdir]
      exact ⟨.ok true, rfl⟩
    · rw [if_neg hdir]
      have hsome := @reduceRow_isSome (fun k => canReachF g Faux k e)
        (keys g) row.enum false ?_
      · rcases Option.isSome_iff_exists.mp hsome with ⟨r0, h0⟩
        exact ⟨r0, h0⟩
      · intro idx k hmem2 hk
        rcases hFaux idx k hmem2 hk with ⟨r0, h0⟩
        show (canReachF g Faux k e).isSome = true
        rw [h0]
        rfl
  rcases jsIndexOf_spec_of_mem hs with ⟨i, _, hlt, hget⟩
  have hsget : (keys g).get ⟨i, hlt⟩ = s := by
    rw [List.getElem?_eq_getElem hlt] at hget
    exact Option.some.inj hget
  rcases main ⟨i, hlt⟩ with ⟨F, r0, h0⟩
  rw [hsget] at h0
  exact ⟨F, fun fuel hf => ⟨r0, canReachF_mono hf h0⟩⟩

theorem canReachF_complete {g : JsGraph T} (hwf : WF g) {fi : Nat} {kf : String}
    (hkf : (keys g)[fi]? = some kf) :
    ∀ {ti : Nat}, Relation.TransGen (edgeRel g) ti fi →
    ∀ {kt : String}, (keys g)[ti]? = some kt →
    ∀ {fuel : Nat} {r : Except JsErr Bool},
      canReachF g fuel kt kf = some r → r = .ok true := by
  intro ti htg
  refine Relation.TransGen.head_induction_on
    (P := fun a _ => ∀ {kt : String}, (keys g)[a]? = some kt →
      ∀ {fuel : Nat} {r : Except JsErr Bool}, canReachF g fuel kt kf = some r → r = .ok true)
    htg ?base ?step
  case base =>
    intro x hxe kt hkt fuel r h
    cases fuel with
    | zero => exact absurd h (by simp [canReachF])
    | succ n =>
      rcases edgeB_spec hxe with ⟨row, hrow, hcell⟩
      have hidxt : jsIndexOf (keys g) kt = (x : Int) := jsIndexOf_of_nodup hwf.1 hkt
      have hidxf : jsIndexOf (keys g) kf = (fi : Int) := jsIndexOf_of_nodup hwf.1 hkf
      rw [canReachF_succ_eq, hidxt, jsGetInt_natCast, hrow] at h
      dsimp only at h
      rw [hidxf, jsGetInt_natCast, hcell] at h
      rw [if_pos (by rfl)] at h
      simp only [Option.some.injEq] at h
      exact h.symm
  case step =>
    intro x y hxy htl ihy kt hkt fuel r h
    cases fuel with
    | zero => exact absurd h (by simp [canReachF])
    | succ n =>
      rcases edgeB_spec hxy with ⟨row, hrow, hcell⟩
      have hidxt : jsIndexOf (keys g) kt = (x : Int) := jsIndexOf_of_nodup hwf.1 hkt
      rw [canReachF_succ_eq, hidxt, jsGetInt_natCast, hrow] at h
      dsimp only at h
      by_cases hdir : cellB ((jsGetInt row (jsIndexOf (keys g) kf)).join) = true
      · rw [if_pos hdir] at h
        simp only [Option.some.injEq] at h
        exact h.symm
      · rw [if_neg hdir] at h
        have hrowmem : row ∈ g.adjacency := List.getElem?_mem hrow
        have hrlen : row.length = (keys g).length := by
          have h1 := hwf.2.2 row hrowmem
          have h2 : (keys g).length = g.nodes.length := List.length_map _ _
          omega
        refine reduceRow_reaches_true ?_ ?_ h
        · intro idx hmem
          have hcell2 : row[idx]? = some (some true) := List.mk_mem_enum_iff_getElem?.mp hmem
          have hidxlt : idx < row.length := (List.getElem?_eq_some.mp hcell2).1
          have hkidx : idx < (keys g).length := by omega
          refine ⟨(keys g).get ⟨idx, hkidx⟩, List.getElem?_eq_getElem hkidx, ?_⟩
          intro r2 h2
          exact canReachF_ok_of_mem hwf (List.getElem_mem hkidx) h2
        · have hylt : y < row.length := (List.getElem?_eq_some.mp hcell).1
          have hyk : y < (keys g).length := by omega
          refine ⟨y, (keys g).get ⟨y, hyk⟩, List.mk_mem_enum_iff_getElem?.mpr hcell,
            List.getElem?_eq_getElem hyk, ?_⟩
          intro r2 h2
          exact ihy (List.getElem?_eq_getElem hyk) h2

theorem acyclic_of_increasing {g : JsGraph T}
    (h : ∀ i j, edgeRel g i j → i < j) : AcyclicMatrix g := by
  intro i htg
  have hmono : ∀ a b, Relation.TransGen (edgeRel g) a b → a < b := by
    intro a b h2
    induction h2 with
    | single h1 => exact h _ _ h1
    | tail _ h2 ih => exact Nat.lt_trans ih (h _ _ h2)
  exact absurd (hmono i i htg) (Nat.lt_irrefl i)

theorem acyclic_of_bounded_increasing {g : JsGraph T} {n : Nat}
    (hlen : g.adjacency.length ≤ n) (hrows : ∀ row ∈ g.adjacency, row.length ≤ n)
    (h : ∀ i, i < n → ∀ j, j < n → edgeB g i j = true → i < j) : AcyclicMatrix g := by
  apply acyclic_of_increasing
  intro i j he
  rcases edgeB_spec he with ⟨row, hrow, hcell⟩
  have hi : i < g.adjacency.length := (List.getElem?_eq_some.mp hrow).1
  have hj : j < row.length := (List.getElem?_eq_some.mp hcell).1
  have hrl := hrows row (List.getElem?_mem hrow)
  exact h i (by omega) j (by omega) he

/-! ## Claim C10: `canReachFrom` performs no existence validation -/

/-- Claim C10: `canReachFrom` never raises `NodeDoesntExistError` (its
only error is the `TypeError` from indexing `undefined`); when the start
node exists in a well-formed graph every access of the search is in
bounds and the call, if it returns, returns a boolean; and when the start
node is absent, `indexOf` yields `-1` and the very first adjacency lookup
`this.adjacency[-1][...]` throws the `TypeError`. -/
theorem canReachFrom_no_validation (g : JsGraph T) :
    (∀ fuel s e er, canReachF g fuel s e = some (.error er) →
      er = .typeError ∧ ∀ id, er ≠ .nodeDoesntExist id) ∧
    (WF g → ∀ s, s ∈ keys g → ∀ fuel e r, canReachF g fuel s e = some r → ∃ b, r = .ok b) ∧
    (∀ s, s ∉ keys g → jsIndexOf (keys g) s = -1 ∧
      ∀ fuel e, canReachF g (fuel + 1) s e = some (.error .typeError)) := by
  refine ⟨?_, ?_, ?_⟩
  · intro fuel s e er h
    have ht := canReachF_error_typeError h
    subst ht
    exact ⟨rfl, fun id hc => JsErr.noConfusion hc⟩
  · intro hwf s hs fuel e r h
    exact canReachF_ok_of_mem hwf hs h
  · intro s hs
    exact ⟨(canReachF_absent hs 0 s).1, fun fuel e => (canReachF_absent hs fuel e).2⟩

/-- Witness for claim C10 on the concrete graph `subTestDG`: the search
from the existing node A returns a boolean, and from the absent node Z
the index is `-1` and the call throws the `TypeError`. -/
theorem canReachFrom_no_validation_witness :
    jsIndexOf (keys subTestDG) "Z" = -1 ∧
    canReachF subTestDG 9 "Z" "A" = some (.error .typeError) ∧
    ∃ b, (.ok true : Except JsErr Bool) = .ok b := by
  have h3 := (canReachFrom_no_validation subTestDG).2.2 "Z" (by decide)
  have h2 := (canReachFrom_no_validation subTestDG).2.1 (by decide) "A" (by decide)
    9 "C" (.ok true) rfl
  exact ⟨h3.1, h3.2 8 "A", h2⟩

/-! ## Claim C3: the DAG tier rejects cycle-creating edges -/

/-- Claim C3: on a `DirectedAcyclicGraph` whose matrix satisfies the
acyclicality invariant, for existing identities `from`, `to`, if adding
`from -> to` would create a cycle — `from = to`, or `to` reaches `from`
through the edge relation — then `addEdge(from, to)` fails with
`CycleError` naming both identities and performs no mutation (the error
state is the unchanged receiver). -/
theorem dag_addEdge_rejects_cycle {g : JsGraph T} (hwf : WF g) (hacy : AcyclicMatrix g)
    {fromId toId : String} (hto : toId ∈ keys g)
    (hcyc : fromId = toId ∨ ∃ ti fi : Nat, (keys g)[ti]? = some toId ∧
      (keys g)[fi]? = some fromId ∧ Relation.TransGen (edgeRel g) ti fi) :
    ∃ F, ∀ fuel, F ≤ fuel →
      DirectedAcyclicGraph.addEdgeF g fuel fromId toId
        = some (.error (.cycleError fromId toId, g)) := by
  by_cases hcache : g.hasCycle.getD false = true
  · refine ⟨0, fun fuel _ => ?_⟩
    have hw : wouldAddingEdgeCreateCyleF g fuel fromId toId = some (.ok true) := by
      unfold wouldAddingEdgeCreateCyleF
      rw [if_pos hcache]
    unfold DirectedAcyclicGraph.addEdgeF
    rw [hw]
  · by_cases heqb : (fromId == toId) = true
    · refine ⟨0, fun fuel _ => ?_⟩
      have hw : wouldAddingEdgeCreateCyleF g fuel fromId toId = some (.ok true) := by
        unfold wouldAddingEdgeCreateCyleF
        rw [if_neg hcache, if_pos heqb]
      unfold DirectedAcyclicGraph.addEdgeF
      rw [hw]
    · rcases hcyc with heq | ⟨ti, fi, hti, hfi, htg⟩
      · exact absurd (by simp [heq]) heqb
      · rcases canReachF_terminates hwf hacy hto fromId with ⟨F, hF⟩
        refine ⟨F, fun fuel hf => ?_⟩
        rcases hF fuel hf with ⟨r, hr⟩
        have hok : r = .ok true := canReachF_complete hwf hfi htg hti hr
        subst hok
        have hw : wouldAddingEdgeCreateCyleF g fuel fromId toId = some (.ok true) := by
          unfold wouldAddingEdgeCreateCyleF
          rw [if_neg hcache, if_neg heqb]
          exact hr
        unfold DirectedAcyclicGraph.addEdgeF
        rw [hw]

/-- Witness for claim C3 on `chainDAG` (A to B to C, built through the
DAG API): `addEdge("C", "A")` fails with `CycleError` naming C and A and
leaves the state unchanged, matching the scenario of the specification;
`isAcyclic()` still answers true afterwards (the state is unchanged). -/
theorem dag_addEdge_rejects_cycle_witness :
    (∃ F, DirectedAcyclicGraph.addEdgeF chainDAG F "C" "A"
      = some (.error (.cycleError "C" "A", chainDAG))) ∧
    (isAcyclicF chainDAG 9).map (fun p => p.1) = some true := by
  have hacy : AcyclicMatrix chainDAG :=
    acyclic_of_bounded_increasing (n := 3) (by decide) (by decide) (by decide)
  rcases dag_addEdge_rejects_cycle (g := chainDAG) (by decide) hacy (by decide)
    (Or.inr ⟨0, 2, rfl, rfl,
      Relation.TransGen.head (show edgeB chainDAG 0 1 = true by decide)
        (Relation.TransGen.single (show edgeB chainDAG 1 2 = true by decide))⟩)
    with ⟨F, hF⟩
  exact ⟨⟨F, hF F (Nat.le_refl F)⟩, rfl⟩

/-! ## Kahn worklist machinery (isAcyclic / topologicallySortedNodes) -/

/-- The number of edges into column `j` whose source row's key is not in
`out` — the remaining indegree that the Kahn worklist maintains for the
node at ordinal `j` once the keys in `out` have been popped. -/
def remK (g : JsGraph T) (out : List String) (j : Nat) : Nat :=
  (List.range (keys g).length).countP
    (fun i => edgeB g i j && !(out.contains ((keys g).getD i "")))

/-- The pairs pushed onto `toSearch` while one adjacency row is
processed (the guarded `push` in the `forEach` bodies of `isAcyclic` and
`topologicallySortedNodes`), computed against the indegree map as it
stood at the start of the row; each column of a row is visited at most
once, so the running map and the initial map agree on every lookup. -/
def pushesOf (ids : List String) (indegs : List (String × Int)) :
    List (Nat × Cell) → List (String × Int)
  | [] => []
  | p :: rest =>
    if cellB p.2 then
      match ids[p.1]? with
      | none => pushesOf ids indegs rest
      | some k =>
        match jsMapGet indegs k with
        | none => pushesOf ids indegs rest
        | some d =>
          if d - 1 == 0 then (k, d - 1) :: pushesOf ids indegs rest
          else pushesOf ids indegs rest
    else pushesOf ids indegs rest

/-- No edge runs from the later key `b` back to the earlier key `a`;
the pairwise relation along the popped-key list that makes it a
topological order. -/
def noBackEdge (g : JsGraph T) (a b : String) : Prop :=
  ∀ i j, i < (keys g).length → j < (keys g).length →
    (keys g).getD i "" = b → (keys g).getD j "" = a → edgeB g i j = false

/-- The loop invariant of the shared Kahn worklist
(`adjC`, `indegs`, `toSearch` the working state, `out` the popped keys):
popped keys are distinct and closed under predecessors, they form a
topological prefix, the indegree map stores exactly the remaining
indegrees, `toSearch` holds exactly the unpopped keys whose remaining
indegree is zero, and the rows of unpopped nodes are untouched. -/
structure KInv (g : JsGraph T) (adjC : List (List Cell)) (indegs : List (String × Int))
    (toSearch : List (String × Int)) (out : List String) : Prop where
  outNodup : out.Nodup
  outSub : ∀ k ∈ out, k ∈ keys g
  closed : ∀ j, j < (keys g).length → (keys g).getD j "" ∈ out →
    ∀ i, edgeB g i j = true → (keys g).getD i "" ∈ out
  noSelf : ∀ j, j < (keys g).length → (keys g).getD j "" ∈ out → edgeB g j j = false
  outPair : out.Pairwise (noBackEdge g)
  idkeys : indegs.map (fun p => p.1) = keys g
  idval : ∀ j, j < (keys g).length →
    jsMapGet indegs ((keys g).getD j "") = some ((remK g out j : Int))
  tsNodup : (toSearch.map (fun p => p.1)).Nodup
  tsMem : ∀ j, j < (keys g).length →
    ((keys g).getD j "" ∈ toSearch.map (fun p => p.1) ↔
      ((keys g).getD j "" ∉ out ∧ remK g out j = 0))
  tsDisj : ∀ p ∈ toSearch, p.1 ∉ out
  tsSub : ∀ p ∈ toSearch, p.1 ∈ keys g
  rows : ∀ i, i < (keys g).length → (keys g).getD i "" ∉ out →
    adjC[i]? = g.adjacency[i]?
  adjLen : adjC.length = g.adjacency.length

theorem getD_eq_some {l : List String} {j : Nat} (h : j < l.length) :
    l[j]? = some (l.getD j "") := by
  rw [List.getElem?_eq_getElem h, List.getD_eq_getElem?_getD,
    List.getElem?_eq_getElem h]
  rfl

theorem getD_inj {l : List String} (hn : l.Nodup) {i j : Nat} (hi : i < l.length)
    (hj : j < l.length) (h : l.getD i "" = l.getD j "") : i = j := by
  apply List.getElem?_inj hi hn
  rw [getD_eq_some hi, getD_eq_some hj, h]

theorem countP_congrB {l : List α} {p q : α → Bool} (h : ∀ a ∈ l, p a = q a) :
    l.countP p = l.countP q := by
  induction l with
  | nil => rfl
  | cons a tl ih =>
    rw [List.countP_cons, List.countP_cons, h a (List.mem_cons_self a tl),
      ih (fun b hb => h b (List.mem_cons_of_mem a hb))]

theorem countP_single_flip {l : List Nat} {p q : Nat → Bool} {x : Nat}
    (hn : l.Nodup) (hx : x ∈ l) (hpq : ∀ a ∈ l, a ≠ x → p a = q a)
    (hpx : p x = true) (hqx : q x = false) :
    l.countP p = l.countP q + 1 := by
  induction l with
  | nil => cases hx
  | cons a tl ih =>
    rw [List.countP_cons, List.countP_cons]
    rcases List.mem_cons.mp hx with rfl | hx2
    · have hxtl : x ∉ tl := (List.nodup_cons.mp hn).1
      have heq : tl.countP p = tl.countP q :=
        countP_congrB (fun b hb => hpq b (List.mem_cons_of_mem _ hb)
          (fun hbx => hxtl (hbx ▸ hb)))
      rw [heq, hpx, hqx]
      simp
    · have hax : a ≠ x := by
        intro hax
        exact (List.nodup_cons.mp hn).1 (hax ▸ hx2)
      rw [hpq a (List.mem_cons_self a tl) hax,
        ih (List.nodup_cons.mp hn).2 hx2
          (fun b hb hbx => hpq b (List.mem_cons_of_mem _ hb) hbx)]
      omega

theorem countP_foldl_add (l : List α) (f : α → Bool) :
    ∀ init : Nat, l.foldl (fun c a => c + if f a then 1 else 0) init =
      init + l.countP f := by
  induction l with
  | nil => intro init; simp
  | cons a tl ih =>
    intro init
    rw [List.foldl_cons, ih, List.countP_cons]
    by_cases hf : f a = true
    · rw [if_pos hf]
      omega
    · rw [if_neg hf]
      omega

theorem countP_eq_range (l : List α) (d : α) (q : α → Bool) :
    l.countP q = (List.range l.length).countP (fun i => q (l.getD i d)) := by
  induction l with
  | nil => simp
  | cons a tl ih =>
    simp only [List.length_cons, List.range_succ_eq_map, List.countP_cons,
      List.countP_map]
    have h1 : (List.range tl.length).countP
          ((fun i => q ((a :: tl).getD i d)) ∘ Nat.succ) =
        (List.range tl.length).countP (fun i => q (tl.getD i d)) :=
      countP_congrB (fun b _ => by simp [Function.comp])
    rw [h1, ← ih]
    rfl

theorem getElem?_eq_getD {l : List α} {d : α} {j : Nat} (h : j < l.length) :
    l[j]? = some (l.getD j d) := by
  rw [List.getElem?_eq_getElem h, List.getD_eq_getElem?_getD,
    List.getElem?_eq_getElem h]
  rfl

theorem edgeB_lt_of_WF {g : JsGraph T} (hwf : WF g) {i j : Nat}
    (h : edgeB g i j = true) : i < (keys g).length ∧ j < (keys g).length := by
  rcases edgeB_spec h with ⟨row, hrow, hcell⟩
  have hi : i < g.adjacency.length := (List.getElem?_eq_some.mp hrow).1
  have hj : j < row.length := (List.getElem?_eq_some.mp hcell).1
  have hklen : (keys g).length = g.nodes.length := List.length_map _ _
  have hrl := hwf.2.2 row (List.getElem?_mem hrow)
  have hal := hwf.2.1
  omega

theorem indegCount_eq_remK {g : JsGraph T} (hwf : WF g) {j : Nat}
    (hj : j < (keys g).length) :
    indegCount g ((keys g).getD j "") = remK g [] j := by
  have hidx : jsIndexOf (keys g) ((keys g).getD j "") = (j : Int) :=
    jsIndexOf_of_nodup hwf.1 (getD_eq_some hj)
  unfold indegCount
  rw [countP_foldl_add, Nat.zero_add,
    countP_eq_range g.adjacency ([] : List Cell)]
  have hlen : g.adjacency.length = (keys g).length := by
    have := hwf.2.1
    have h2 : (keys g).length = g.nodes.length := List.length_map _ _
    omega
  rw [hlen]
  unfold remK
  apply countP_congrB
  intro i hi
  have hilt : i < (keys g).length := List.mem_range.mp hi
  have hi2 : i < g.adjacency.length := by omega
  have hrow : g.adjacency[i]? = some (g.adjacency.getD i []) :=
    getElem?_eq_getD hi2
  have hbE : edgeB g i j = cellB ((jsGetInt (g.adjacency.getD i [])
      (jsIndexOf (keys g) ((keys g).getD j ""))).join) := by
    rw [hidx, jsGetInt_natCast]
    unfold edgeB matRead
    rw [hrow]
    rfl
  rw [← hbE]
  simp

theorem remK_eq_zero_iff {g : JsGraph T} {out : List String} {j : Nat} :
    remK g out j = 0 ↔ ∀ i, i < (keys g).length → edgeB g i j = true →
      (keys g).getD i "" ∈ out := by
  unfold remK
  rw [List.countP_eq_zero]
  constructor
  · intro h i hi he
    have h2 := h i (List.mem_range.mpr hi)
    simp [he] at h2
    rwa [List.getD_eq_getElem?_getD]
  · intro h i hi
    have hi2 := List.mem_range.mp hi
    by_cases he : edgeB g i j = true
    · have hmem := h i hi2 he
      rw [List.getD_eq_getElem?_getD] at hmem
      simp [he, hmem]
    · simp [he]

theorem remK_pos {g : JsGraph T} {out : List String} {i j : Nat}
    (hi : i < (keys g).length) (he : edgeB g i j = true)
    (hno : (keys g).getD i "" ∉ out) : 0 < remK g out j := by
  unfold remK
  rw [List.countP_pos_iff]
  refine ⟨i, List.mem_range.mpr hi, ?_⟩
  rw [List.getD_eq_getElem?_getD] at hno
  simp [he, hno]

theorem remK_append_of_edge {g : JsGraph T} (hn : (keys g).Nodup)
    {out : List String} {c : String} {ic j : Nat} (hic : ic < (keys g).length)
    (hc : (keys g).getD ic "" = c) (hnot : c ∉ out) (he : edgeB g ic j = true) :
    remK g out j = remK g (out ++ [c]) j + 1 := by
  unfold remK
  apply countP_single_flip (List.nodup_range _) (List.mem_range.mpr hic)
  · intro a ha hax
    have halt := List.mem_range.mp ha
    have hne : (keys g).getD a "" ≠ c := by
      intro hEq
      exact hax (getD_inj hn halt hic (hEq.trans hc.symm))
    rw [List.getD_eq_getElem?_getD] at hne
    simp [hne]
  · rw [hc]
    have hnot2 := hnot
    simp [he, hnot2]
  · rw [hc]
    simp [he]

theorem remK_append_of_not_edge {g : JsGraph T} (hn : (keys g).Nodup)
    {out : List String} {c : String} {ic j : Nat} (hic : ic < (keys g).length)
    (hc : (keys g).getD ic "" = c) (he : edgeB g ic j = false) :
    remK g (out ++ [c]) j = remK g out j := by
  unfold remK
  apply countP_congrB
  intro a ha
  have halt := List.mem_range.mp ha
  by_cases hax : a = ic
  · subst hax
    rw [he]
    rfl
  · have hne : (keys g).getD a "" ≠ c := by
      intro hEq
      exact hax (getD_inj hn halt hic (hEq.trans hc.symm))
    rw [List.getD_eq_getElem?_getD] at hne
    simp [hne]

theorem remK_zero_append {g : JsGraph T} {out : List String} {c : String} {j : Nat}
    (h : remK g out j = 0) : remK g (out ++ [c]) j = 0 := by
  rw [remK_eq_zero_iff] at h ⊢
  intro i hi he
  exact List.mem_append_left _ (h i hi he)

theorem pushesOf_cons (ids : List String) (indegs : List (String × Int))
    (p : Nat × Cell) (rest : List (Nat × Cell)) :
    pushesOf ids indegs (p :: rest) =
      (if cellB p.2 then
        match ids[p.1]? with
        | none => pushesOf ids indegs rest
        | some k =>
          match jsMapGet indegs k with
          | none => pushesOf ids indegs rest
          | some d =>
            if d - 1 == 0 then (k, d - 1) :: pushesOf ids indegs rest
            else pushesOf ids indegs rest
       else pushesOf ids indegs rest) := rfl

theorem processRow_cons (zeroRow : Bool) (ids : List String) (rowIdx : Int)
    (index : Nat) (cell : Cell) (rest : List (Nat × Cell))
    (adjC : List (List Cell)) (indegs toSearch : List (String × Int)) :
    processRow zeroRow ids rowIdx ((index, cell) :: rest) adjC indegs toSearch =
      (if cellB cell then
        let adjC1 := if zeroRow then matSet adjC rowIdx (index : Int) (some false)
          else adjC
        match ids[index]? with
        | none => processRow zeroRow ids rowIdx rest adjC1 indegs toSearch
        | some k =>
          match jsMapGet indegs k with
          | none => processRow zeroRow ids rowIdx rest adjC1 indegs toSearch
          | some d =>
            processRow zeroRow ids rowIdx rest adjC1 (jsMapSet indegs k (d - 1))
              (if d - 1 == 0 then toSearch ++ [(k, d - 1)] else toSearch)
       else processRow zeroRow ids rowIdx rest adjC indegs toSearch) := rfl

theorem matSet_row_other (m : List (List Cell)) (i j : Int) (v : Cell) {i2 : Nat}
    (h : (i2 : Int) ≠ i) : (matSet m i j v)[i2]? = m[i2]? := by
  unfold matSet
  by_cases hij : 0 ≤ i ∧ 0 ≤ j
  · rw [if_pos hij]
    have hne : i.toNat ≠ i2 := by omega
    exact List.getElem?_set_ne hne
  · rw [if_neg hij]

theorem pushesOf_congr {ids : List String} {indegs1 indegs2 : List (String × Int)} :
    ∀ {cells : List (Nat × Cell)},
      (∀ p ∈ cells, ∀ k, ids[p.1]? = some k →
        jsMapGet indegs1 k = jsMapGet indegs2 k) →
      pushesOf ids indegs1 cells = pushesOf ids indegs2 cells := by
  intro cells
  induction cells with
  | nil => intro _; rfl
  | cons p rest ih =>
    intro h
    have hrest := ih (fun q hq => h q (List.mem_cons_of_mem _ hq))
    rw [pushesOf_cons, pushesOf_cons]
    by_cases hc : cellB p.2 = true
    · rw [if_pos hc, if_pos hc]
      cases hk : ids[p.1]? with
      | none => dsimp only; exact hrest
      | some k =>
        dsimp only
        rw [h p (List.mem_cons_self _ _) k hk]
        cases jsMapGet indegs2 k with
        | none => dsimp only; exact hrest
        | some d =>
          dsimp only
          by_cases hd : (d - 1 == 0) = true
          · rw [if_pos hd, if_pos hd, hrest]
          · rw [if_neg hd, if_neg hd, hrest]
    · rw [if_neg hc, if_neg hc, hrest]

theorem pushesOf_mem {ids : List String} {indegs : List (String × Int)} :
    ∀ {cells : List (Nat × Cell)} {q : String × Int},
      (q ∈ pushesOf ids indegs cells ↔
        ∃ p ∈ cells, cellB p.2 = true ∧ ids[p.1]? = some q.1 ∧
          jsMapGet indegs q.1 = some 1 ∧ q.2 = 0) := by
  intro cells
  induction cells with
  | nil => intro q; simp [pushesOf]
  | cons p rest ih =>
    intro q
    rw [pushesOf_cons]
    constructor
    · intro hq
      by_cases hc : cellB p.2 = true
      · rw [if_pos hc] at hq
        cases hk : ids[p.1]? with
        | none =>
          rw [hk] at hq
          dsimp only at hq
          rcases ih.mp hq with ⟨p2, hp2, h2⟩
          exact ⟨p2, List.mem_cons_of_mem _ hp2, h2⟩
        | some k =>
          rw [hk] at hq
          dsimp only at hq
          cases hd : jsMapGet indegs k with
          | none =>
            rw [hd] at hq
            dsimp only at hq
            rcases ih.mp hq with ⟨p2, hp2, h2⟩
            exact ⟨p2, List.mem_cons_of_mem _ hp2, h2⟩
          | some d =>
            rw [hd] at hq
            dsimp only at hq
            by_cases hz : (d - 1 == 0) = true
            · rw [if_pos hz] at hq
              rcases List.mem_cons.mp hq with rfl | hq2
              · have hd1 : d = 1 := by
                  have := beq_iff_eq.mp hz
                  omega
                refine ⟨p, List.mem_cons_self _ _, hc, hk, ?_, ?_⟩
                · rw [hd, hd1]
                · simp [hd1]
              · rcases ih.mp hq2 with ⟨p2, hp2, h2⟩
                exact ⟨p2, List.mem_cons_of_mem _ hp2, h2⟩
            · rw [if_neg hz] at hq
              rcases ih.mp hq with ⟨p2, hp2, h2⟩
              exact ⟨p2, List.mem_cons_of_mem _ hp2, h2⟩
      · rw [if_neg hc] at hq
        rcases ih.mp hq with ⟨p2, hp2, h2⟩
        exact ⟨p2, List.mem_cons_of_mem _ hp2, h2⟩
    · intro hq
      rcases hq with ⟨p2, hp2, hc2, hk2, hget2, hv2⟩
      rcases List.mem_cons.mp hp2 with rfl | hp3
      · rw [if_pos hc2, hk2]
        dsimp only
        rw [hget2]
        dsimp only
        rw [if_pos (by simp)]
        have hq1 : q = (q.1, (1 : Int) - 1) := by
          rcases q with ⟨qk, qv⟩
          simp at hv2
          simp [hv2]
        rw [← hq1]
        exact List.mem_cons_self _ _
      · have hmem : q ∈ pushesOf ids indegs rest :=
          ih.mpr ⟨p2, hp3, hc2, hk2, hget2, hv2⟩
        by_cases hc : cellB p.2 = true
        · rw [if_pos hc]
          cases hk : ids[p.1]? with
          | none => dsimp only; exact hmem
          | some k =>
            dsimp only
            cases hd : jsMapGet indegs k with
            | none => dsimp only; exact hmem
            | some d =>
              dsimp only
              by_cases hz : (d - 1 == 0) = true
              · rw [if_pos hz]
                exact List.mem_cons_of_mem _ hmem
              · rw [if_neg hz]
                exact hmem
        · rw [if_neg hc]
          exact hmem

theorem pushesOf_keys_nodup {ids : List String} (hids : ids.Nodup)
    {indegs : List (String × Int)} :
    ∀ {cells : List (Nat × Cell)}, (cells.map Prod.fst).Nodup →
      ((pushesOf ids indegs cells).map (fun p => p.1)).Nodup := by
  intro cells
  induction cells with
  | nil => intro _; exact List.nodup_nil
  | cons p rest ih =>
    intro hn
    have hn2 : (rest.map Prod.fst).Nodup := (List.nodup_cons.mp hn).2
    have hp1 : p.1 ∉ rest.map Prod.fst := (List.nodup_cons.mp hn).1
    rcases p with ⟨index, cell⟩
    rw [pushesOf_cons]
    by_cases hc : cellB cell = true
    · rw [if_pos hc]
      cases hk : ids[index]? with
      | none => dsimp only; exact ih hn2
      | some k =>
        dsimp only
        cases hd : jsMapGet indegs k with
        | none => dsimp only; exact ih hn2
        | some d =>
          dsimp only
          by_cases hz : (d - 1 == 0) = true
          · rw [if_pos hz, List.map_cons]
            refine List.nodup_cons.mpr ⟨?_, ih hn2⟩
            intro hkmem
            rcases List.mem_map.mp hkmem with ⟨q, hq, hqk⟩
            rcases pushesOf_mem.mp hq with ⟨p2, hp2, _, hk2, _, _⟩
            rw [hqk] at hk2
            have : p2.1 = index := List.getElem?_inj
              (List.getElem?_eq_some.mp hk2).1 hids (hk2.trans hk.symm)
            have hmem2 : p2.1 ∈ rest.map Prod.fst := List.mem_map_of_mem Prod.fst hp2
            rw [this] at hmem2
            exact hp1 hmem2
          · rw [if_neg hz]
            exact ih hn2
    · rw [if_neg hc]
      exact ih hn2

theorem processRow_eff {ids : List String} (hids : ids.Nodup) (zeroRow : Bool)
    (rowIdx : Int) :
    ∀ (cells : List (Nat × Cell)) (adjC : List (List Cell))
      (indegs toSearch : List (String × Int)),
      (cells.map Prod.fst).Nodup → (∀ p ∈ cells, p.1 < ids.length) →
      indegs.map (fun p => p.1) = ids →
      (processRow zeroRow ids rowIdx cells adjC indegs toSearch).1.length
          = adjC.length ∧
      (∀ i2 : Nat, (i2 : Int) ≠ rowIdx →
        (processRow zeroRow ids rowIdx cells adjC indegs toSearch).1[i2]?
          = adjC[i2]?) ∧
      (processRow zeroRow ids rowIdx cells adjC indegs toSearch).2.1.map
          (fun p => p.1) = ids ∧
      (∀ j2, j2 < ids.length →
        jsMapGet (processRow zeroRow ids rowIdx cells adjC indegs toSearch).2.1
            (ids.getD j2 "") =
          if j2 ∈ (cells.filter (fun p => cellB p.2)).map Prod.fst then
            (jsMapGet indegs (ids.getD j2 "")).map (fun d => d - 1)
          else jsMapGet indegs (ids.getD j2 "")) ∧
      (processRow zeroRow ids rowIdx cells adjC indegs toSearch).2.2 =
        toSearch ++ pushesOf ids indegs cells := by
  intro cells
  induction cells with
  | nil =>
    intro adjC indegs toSearch _ _ hkeys
    refine ⟨rfl, fun _ _ => rfl, hkeys, ?_, (List.append_nil _).symm⟩
    intro j2 _
    rw [if_neg (by simp)]
    rfl
  | cons p rest ih =>
    intro adjC indegs toSearch hnodup hlt hkeys
    rcases p with ⟨index, cell⟩
    have hnodup2 : (rest.map Prod.fst).Nodup := (List.nodup_cons.mp hnodup).2
    have hidxnot : index ∉ rest.map Prod.fst := (List.nodup_cons.mp hnodup).1
    have hlt2 : ∀ p ∈ rest, p.1 < ids.length :=
      fun p hp => hlt p (List.mem_cons_of_mem _ hp)
    rw [processRow_cons, pushesOf_cons]
    by_cases hc : cellB cell = true
    · rw [if_pos hc, if_pos hc]
      have hidx : index < ids.length := hlt _ (List.mem_cons_self _ _)
      have hk : ids[index]? = some (ids.getD index "") := getElem?_eq_getD hidx
      rw [hk]
      dsimp only
      have hkmem : ids.getD index "" ∈ ids := List.getElem?_mem hk
      have hkin : ids.getD index "" ∈ indegs.map (fun p => p.1) := by
        rw [hkeys]
        exact hkmem
      obtain ⟨d, hd⟩ :=
        Option.isSome_iff_exists.mp (jsMapGet_isSome_of_mem hkin)
      rw [hd]
      dsimp only
      have hkeys1 : (jsMapSet indegs (ids.getD index "") (d - 1)).map
          (fun p => p.1) = ids := by
        rw [jsMapSet_keys_of_mem hkin, hkeys]
      obtain ⟨IH1, IH2, IH3, IH4, IH5⟩ :=
        ih (if zeroRow then matSet adjC rowIdx (index : Int) (some false) else adjC)
          (jsMapSet indegs (ids.getD index "") (d - 1))
          (if (d - 1 == 0) = true then toSearch ++ [(ids.getD index "", d - 1)]
            else toSearch)
          hnodup2 hlt2 hkeys1
      refine ⟨?_, ?_, IH3, ?_, ?_⟩
      · rw [IH1]
        by_cases hz : zeroRow = true
        · rw [if_pos hz]
          exact matSet_length _ _ _ _
        · rw [if_neg hz]
      · intro i2 hi2
        rw [IH2 i2 hi2]
        by_cases hz : zeroRow = true
        · rw [if_pos hz]
          exact matSet_row_other _ _ _ _ hi2
        · rw [if_neg hz]
      · intro j2 hj2
        rw [IH4 j2 hj2]
        have hfc : ((index, cell) :: rest).filter (fun p => cellB p.2) =
            (index, cell) :: rest.filter (fun p => cellB p.2) :=
          List.filter_cons_of_pos hc
        by_cases hji : j2 = index
        · subst hji
          have hnotrest : j2 ∉ (rest.filter (fun p => cellB p.2)).map Prod.fst := by
            intro hmem
            rcases List.mem_map.mp hmem with ⟨q, hq, hqf⟩
            have hq2 : q ∈ rest := List.mem_of_mem_filter hq
            exact hidxnot (hqf ▸ List.mem_map_of_mem Prod.fst hq2)
          rw [if_neg hnotrest, jsMapGet_jsMapSet_self, hfc, List.map_cons,
            if_pos (List.mem_cons_self _ _), hd]
          rfl
        · have hne : ids.getD j2 "" ≠ ids.getD index "" :=
            fun hEq => hji (getD_inj hids hj2 hidx hEq)
          rw [jsMapGet_jsMapSet_ne indegs hne (d - 1)]
          have hcond : (j2 ∈ (rest.filter (fun p => cellB p.2)).map Prod.fst) ↔
              j2 ∈ (((index, cell) :: rest).filter
                (fun p => cellB p.2)).map Prod.fst := by
            rw [hfc, List.map_cons, List.mem_cons]
            exact (or_iff_right hji).symm
          exact if_congr hcond rfl rfl
      · have hpcong : pushesOf ids (jsMapSet indegs (ids.getD index "") (d - 1))
            rest = pushesOf ids indegs rest := by
          apply pushesOf_congr
          intro p2 hp2 k2 hk2
          have hne2 : k2 ≠ ids.getD index "" := by
            intro hEq
            subst hEq
            have hpi : p2.1 = index := List.getElem?_inj
              (List.getElem?_eq_some.mp hk2).1 hids (hk2.trans hk.symm)
            have hmem2 : p2.1 ∈ rest.map Prod.fst :=
              List.mem_map_of_mem Prod.fst hp2
            rw [hpi] at hmem2
            exact hidxnot hmem2
          exact jsMapGet_jsMapSet_ne indegs hne2 (d - 1)
        rw [IH5, hpcong]
        by_cases hz : (d - 1 == 0) = true
        · rw [if_pos hz, if_pos hz, List.append_assoc]
          rfl
        · rw [if_neg hz, if_neg hz]
    · rw [if_neg hc, if_neg hc]
      obtain ⟨IH1, IH2, IH3, IH4, IH5⟩ := ih adjC indegs toSearch hnodup2 hlt2 hkeys
      refine ⟨IH1, IH2, IH3, ?_, IH5⟩
      intro j2 hj2
      rw [IH4 j2 hj2]
      have hcond : (j2 ∈ (rest.filter (fun p => cellB p.2)).map Prod.fst) ↔
          j2 ∈ (((index, cell) :: rest).filter (fun p => cellB p.2)).map
            Prod.fst := by
        rw [List.filter_cons_of_neg (by simpa using hc)]
      exact if_congr hcond rfl rfl

theorem kahnLoop_succ (zeroRow : Bool) (ids : List String) (f : Nat)
    (adjC : List (List Cell)) (indegs toSearch : List (String × Int))
    (out : List String) :
    kahnLoop zeroRow ids (f + 1) adjC indegs toSearch out =
      (match toSearch.getLast? with
      | none => some out
      | some cur =>
        let rest := toSearch.dropLast
        let nodeIndex := jsIndexOf ids cur.1
        match jsGetInt adjC nodeIndex with
        | none => kahnLoop zeroRow ids f adjC indegs rest (out ++ [cur.1])
        | some row =>
          let s := processRow zeroRow ids nodeIndex row.enum adjC indegs rest
          kahnLoop zeroRow ids f s.1 s.2.1 s.2.2 (out ++ [cur.1])) := rfl

theorem targets_char {g : JsGraph T} {j : Nat} {row0 : List Cell}
    (hrow : g.adjacency[j]? = some row0) (j2 : Nat) :
    j2 ∈ (row0.enum.filter (fun p => cellB p.2)).map Prod.fst ↔
      edgeB g j j2 = true := by
  constructor
  · intro hmem
    rcases List.mem_map.mp hmem with ⟨p, hpf, hpfst⟩
    have hpmem : p ∈ row0.enum := List.mem_of_mem_filter hpf
    have hcell : cellB p.2 = true := (List.mem_filter.mp hpf).2
    have hpe : row0[p.1]? = some p.2 := List.mem_enum_iff_getElem?.mp hpmem
    have hp2 : p.2 = some true := by
      simpa [cellB] using hcell
    subst hpfst
    exact edgeB_of_cells hrow (by rw [hpe, hp2])
  · intro hedge
    rcases edgeB_spec hedge with ⟨row1, hrow1, hcell1⟩
    have hr : row0 = row1 := Option.some.inj (hrow.symm.trans hrow1)
    apply List.mem_map.mpr
    refine ⟨(j2, some true), List.mem_filter.mpr ⟨?_, rfl⟩, rfl⟩
    exact List.mem_enum_iff_getElem?.mpr (by rw [hr]; exact hcell1)

theorem pushes_char {g : JsGraph T} {j : Nat} {row0 : List Cell}
    (hrow : g.adjacency[j]? = some row0)
    {indegs : List (String × Int)} {out : List String}
    (hidval : ∀ j2, j2 < (keys g).length →
      jsMapGet indegs ((keys g).getD j2 "") = some ((remK g out j2 : Int)))
    (q : String × Int) :
    q ∈ pushesOf (keys g) indegs row0.enum ↔
      ∃ j2, j2 < (keys g).length ∧ (keys g).getD j2 "" = q.1 ∧
        edgeB g j j2 = true ∧ remK g out j2 = 1 ∧ q.2 = 0 := by
  rw [pushesOf_mem]
  constructor
  · rintro ⟨p, hp, hcell, hkq, hget, hq2⟩
    have hj2lt : p.1 < (keys g).length := (List.getElem?_eq_some.mp hkq).1
    have hgd : (keys g).getD p.1 "" = q.1 :=
      Option.some.inj ((getElem?_eq_getD hj2lt).symm.trans hkq)
    have hpe : row0[p.1]? = some p.2 := List.mem_enum_iff_getElem?.mp hp
    have hp2 : p.2 = some true := by
      simpa [cellB] using hcell
    have hedge : edgeB g j p.1 = true := edgeB_of_cells hrow (by rw [hpe, hp2])
    have hrem : remK g out p.1 = 1 := by
      have h2 := hidval p.1 hj2lt
      rw [hgd, hget] at h2
      have h3 : (1 : Int) = ((remK g out p.1 : Nat) : Int) := Option.some.inj h2
      omega
    exact ⟨p.1, hj2lt, hgd, hedge, hrem, hq2⟩
  · rintro ⟨j2, hj2, hgd, hedge, hrem, hq2⟩
    rcases edgeB_spec hedge with ⟨row1, hrow1, hcell1⟩
    have hr : row0 = row1 := Option.some.inj (hrow.symm.trans hrow1)
    refine ⟨(j2, some true), ?_, rfl, ?_, ?_, hq2⟩
    · exact List.mem_enum_iff_getElem?.mpr (by rw [hr]; exact hcell1)
    · rw [getElem?_eq_getD hj2, hgd]
    · rw [← hgd, hidval j2 hj2, hrem]
      rfl

theorem kahnLoop_inv {g : JsGraph T} (hwf : WF g) (zeroRow : Bool) :
    ∀ (fuel : Nat) (adjC : List (List Cell)) (indegs toSearch : List (String × Int))
      (out : List String),
      KInv g adjC indegs toSearch out →
      (keys g).length - out.length < fuel →
      ∃ outF adjF indegF,
        kahnLoop zeroRow (keys g) fuel adjC indegs toSearch out = some outF ∧
        KInv g adjF indegF [] outF := by
  intro fuel
  induction fuel with
  | zero =>
    intro adjC indegs toSearch out _ hfuel
    exact absurd hfuel (Nat.not_lt_zero _)
  | succ f ih =>
    intro adjC indegs toSearch out hinv hfuel
    cases hcur : toSearch.getLast? with
    | none =>
      have hts : toSearch = [] := List.getLast?_eq_none_iff.mp hcur
      subst hts
      exact ⟨out, adjC, indegs, by rw [kahnLoop_succ]; rfl, hinv⟩
    | some cur =>
      have hne : toSearch ≠ [] := by
        intro h
        rw [h] at hcur
        exact Option.noConfusion hcur
      have hcurval : cur = toSearch.getLast hne := by
        have h2 := List.getLast?_eq_getLast toSearch hne
        rw [hcur] at h2
        exact Option.some.inj h2
      have hdecomp : toSearch.dropLast ++ [cur] = toSearch := by
        rw [hcurval]
        exact List.dropLast_concat_getLast hne
      have hmemcur : cur ∈ toSearch := by
        rw [← hdecomp]
        exact List.mem_append_right _ (by simp)
      have hcurkey : cur.1 ∈ keys g := hinv.tsSub cur hmemcur
      rcases jsIndexOf_spec_of_mem hcurkey with ⟨j, hidx, hjlt, hget⟩
      have hgetD : (keys g).getD j "" = cur.1 :=
        Option.some.inj ((getD_eq_some hjlt).symm.trans hget)
      have hnotout : cur.1 ∉ out := hinv.tsDisj cur hmemcur
      have hmemfst : (keys g).getD j "" ∈ toSearch.map (fun p => p.1) := by
        rw [hgetD]
        exact List.mem_map_of_mem _ hmemcur
      have hrem0 : remK g out j = 0 := ((hinv.tsMem j hjlt).mp hmemfst).2
      have houtlt : out.length < (keys g).length := by
        by_contra hge
        push_neg at hge
        have hsub : out ⊆ keys g := fun k hk => hinv.outSub k hk
        have hsp := List.Nodup.subperm hinv.outNodup hsub
        have hperm := hsp.perm_of_length_le (by omega)
        exact hnotout (hperm.mem_iff.mpr hcurkey)
      have hklen : (keys g).length = g.nodes.length := List.length_map _ _
      have hjadj : j < g.adjacency.length := by
        have h2 := hwf.2.1
        omega
      have hrow : g.adjacency[j]? = some (g.adjacency.getD j []) :=
        getElem?_eq_getD hjadj
      have hrowlen : (g.adjacency.getD j []).length = (keys g).length := by
        rw [hklen]
        exact hwf.2.2 _ (List.getElem?_mem hrow)
      have hadjCrow : adjC[j]? = some (g.adjacency.getD j []) := by
        rw [hinv.rows j hjlt (by rw [hgetD]; exact hnotout)]
        exact hrow
      have hjs : jsGetInt adjC ((j : Nat) : Int) = some (g.adjacency.getD j []) := by
        rw [jsGetInt_natCast]
        exact hadjCrow
      have hstep : kahnLoop zeroRow (keys g) (f + 1) adjC indegs toSearch out =
          kahnLoop zeroRow (keys g) f
            (processRow zeroRow (keys g) ((j : Nat) : Int)
              (g.adjacency.getD j []).enum adjC indegs toSearch.dropLast).1
            (processRow zeroRow (keys g) ((j : Nat) : Int)
              (g.adjacency.getD j []).enum adjC indegs toSearch.dropLast).2.1
            (processRow zeroRow (keys g) ((j : Nat) : Int)
              (g.adjacency.getD j []).enum adjC indegs toSearch.dropLast).2.2
            (out ++ [cur.1]) := by
        rw [kahnLoop_succ, hcur]
        dsimp only
        rw [hidx, hjs]
      have henum_nodup : (((g.adjacency.getD j []).enum.map Prod.fst)).Nodup := by
        rw [List.enum_map_fst]
        exact List.nodup_range _
      have henum_lt : ∀ p ∈ (g.adjacency.getD j []).enum, p.1 < (keys g).length := by
        intro p hp
        have h2 := List.mem_enum_iff_getElem?.mp hp
        have hplt : p.1 < (g.adjacency.getD j []).length :=
          (List.getElem?_eq_some.mp h2).1
        omega
      obtain ⟨E1, E2, E3, E4, E5⟩ := processRow_eff hwf.1 zeroRow ((j : Nat) : Int)
        (g.adjacency.getD j []).enum adjC indegs toSearch.dropLast
        henum_nodup henum_lt hinv.idkeys
      have htargets := fun j2 => targets_char hrow j2
      have hpushes := fun q => pushes_char hrow hinv.idval q
      have hpop0 : ∀ j2, j2 < (keys g).length → (keys g).getD j2 "" ∈ out →
          remK g out j2 = 0 :=
        fun j2 hj2 hmem =>
          remK_eq_zero_iff.mpr (fun i hi he => hinv.closed j2 hj2 hmem i he)
      have hPfact : ∀ q ∈ pushesOf (keys g) indegs (g.adjacency.getD j []).enum,
          q.1 ∉ out ∧ q.1 ≠ cur.1 ∧ q.1 ∈ keys g := by
        intro q hq
        rcases (hpushes q).mp hq with ⟨j2, hj2, hgd, hedge, hrem1, _⟩
        refine ⟨?_, ?_, ?_⟩
        · intro hmem
          rw [← hgd] at hmem
          have := hpop0 j2 hj2 hmem
          omega
        · intro hEq
          have hjj : j2 = j := getD_inj hwf.1 hj2 hjlt
            (by rw [hgd, hEq, hgetD])
          subst hjj
          have hsrc := remK_eq_zero_iff.mp hrem0 j2 hj2 hedge
          rw [hgd, hEq] at hsrc
          exact hnotout hsrc
        · rw [← hgd]
          exact List.getElem?_mem (getD_eq_some hj2)
      have hmapts : toSearch.map (fun p => p.1) =
          toSearch.dropLast.map (fun p => p.1) ++ [cur.1] := by
        conv_lhs => rw [← hdecomp]
        rw [List.map_append]
        rfl
      have hrestsub : ∀ a, a ∈ toSearch.dropLast.map (fun p => p.1) →
          a ∈ toSearch.map (fun p => p.1) := by
        intro a ha
        rw [hmapts]
        exact List.mem_append_left _ ha
      have hcurnotrest : cur.1 ∉ toSearch.dropLast.map (fun p => p.1) := by
        intro hmem
        have h2 := hinv.tsNodup
        rw [hmapts, List.nodup_append] at h2
        exact h2.2.2 hmem (by simp)
      have hrestmem : ∀ p, p ∈ toSearch.dropLast → p ∈ toSearch :=
        fun p hp => (List.dropLast_sublist _).subset hp
      -- the invariant for the next state
      have houtNodup2 : (out ++ [cur.1]).Nodup := by
        rw [List.nodup_append]
        refine ⟨hinv.outNodup, List.nodup_singleton _, ?_⟩
        intro a ha hb
        rw [List.mem_singleton] at hb
        subst hb
        exact hnotout ha
      have houtSub2 : ∀ k ∈ out ++ [cur.1], k ∈ keys g := by
        intro k hk
        rcases List.mem_append.mp hk with h2 | h2
        · exact hinv.outSub k h2
        · rw [List.mem_singleton] at h2
          subst h2
          exact hcurkey
      have hclosed2 : ∀ j2, j2 < (keys g).length →
          (keys g).getD j2 "" ∈ out ++ [cur.1] →
          ∀ i, edgeB g i j2 = true → (keys g).getD i "" ∈ out ++ [cur.1] := by
        intro j2 hj2 hmem i hedge
        rcases List.mem_append.mp hmem with h2 | h2
        · exact List.mem_append_left _ (hinv.closed j2 hj2 h2 i hedge)
        · rw [List.mem_singleton] at h2
          have hjj : j2 = j := getD_inj hwf.1 hj2 hjlt (by rw [h2, hgetD])
          subst hjj
          have hi : i < (keys g).length := (edgeB_lt_of_WF hwf hedge).1
          exact List.mem_append_left _ (remK_eq_zero_iff.mp hrem0 i hi hedge)
      have hnoSelf2 : ∀ j2, j2 < (keys g).length →
          (keys g).getD j2 "" ∈ out ++ [cur.1] → edgeB g j2 j2 = false := by
        intro j2 hj2 hmem
        rcases List.mem_append.mp hmem with h2 | h2
        · exact hinv.noSelf j2 hj2 h2
        · rw [List.mem_singleton] at h2
          cases hEg : edgeB g j2 j2 with
          | false => rfl
          | true =>
            have hsrc := remK_eq_zero_iff.mp
              (by
                have hjj : j2 = j := getD_inj hwf.1 hj2 hjlt (by rw [h2, hgetD])
                rw [hjj]
                exact hrem0) j2 hj2 hEg
            rw [h2] at hsrc
            exact absurd hsrc hnotout
      have houtPair2 : (out ++ [cur.1]).Pairwise (noBackEdge g) := by
        rw [List.pairwise_append]
        refine ⟨hinv.outPair, List.pairwise_singleton _ _, ?_⟩
        intro a ha b hb
        rw [List.mem_singleton] at hb
        subst hb
        intro i2 j2 hi2 hj2 hgi hgj
        cases hEg : edgeB g i2 j2 with
        | false => rfl
        | true =>
          have hmem2 : (keys g).getD j2 "" ∈ out := by
            rw [hgj]
            exact ha
          have hsrc := hinv.closed j2 hj2 hmem2 i2 hEg
          rw [hgi] at hsrc
          exact absurd hsrc hnotout
      have hidval2 : ∀ j2, j2 < (keys g).length →
          jsMapGet (processRow zeroRow (keys g) ((j : Nat) : Int)
              (g.adjacency.getD j []).enum adjC indegs toSearch.dropLast).2.1
            ((keys g).getD j2 "") =
          some ((remK g (out ++ [cur.1]) j2 : Int)) := by
        intro j2 hj2
        rw [E4 j2 hj2]
        by_cases hD2 : j2 ∈ ((g.adjacency.getD j []).enum.filter
            (fun p => cellB p.2)).map Prod.fst
        · have hedge := (htargets j2).mp hD2
          rw [if_pos hD2, hinv.idval j2 hj2]
          have hstep2 := remK_append_of_edge hwf.1 hjlt hgetD hnotout hedge
          show some ((remK g out j2 : Int) - 1) =
            some ((remK g (out ++ [cur.1]) j2 : Int))
          have h3 : ((remK g out j2 : Int) - 1) =
              ((remK g (out ++ [cur.1]) j2 : Int)) := by
            rw [hstep2]
            push_cast
            ring
          rw [h3]
        · have hedgeF : edgeB g j j2 = false := by
            cases hEg : edgeB g j j2 with
            | false => rfl
            | true => exact absurd ((htargets j2).mpr hEg) hD2
          rw [if_neg hD2, hinv.idval j2 hj2,
            remK_append_of_not_edge hwf.1 hjlt hgetD hedgeF]
      have htsN2 : ((toSearch.dropLast ++ pushesOf (keys g) indegs
          (g.adjacency.getD j []).enum).map (fun p => p.1)).Nodup := by
        rw [List.map_append, List.nodup_append]
        refine ⟨?_, pushesOf_keys_nodup hwf.1 henum_nodup, ?_⟩
        · rw [List.map_dropLast]
          exact List.Nodup.sublist (List.dropLast_sublist _) hinv.tsNodup
        · intro a ha hb
          rcases List.mem_map.mp hb with ⟨q, hqP, hfst⟩
          rcases (hpushes q).mp hqP with ⟨j2, hj2, hgd, hedge, hrem1, _⟩
          have hmem2 : (keys g).getD j2 "" ∈ toSearch.map (fun p => p.1) := by
            rw [hgd, hfst]
            exact hrestsub a ha
          have h3 := ((hinv.tsMem j2 hj2).mp hmem2).2
          omega
      have htsMem2 : ∀ j2, j2 < (keys g).length →
          ((keys g).getD j2 "" ∈ (toSearch.dropLast ++ pushesOf (keys g) indegs
              (g.adjacency.getD j []).enum).map (fun p => p.1) ↔
            ((keys g).getD j2 "" ∉ out ++ [cur.1] ∧
              remK g (out ++ [cur.1]) j2 = 0)) := by
        intro j2 hj2
        rw [List.map_append, List.mem_append]
        constructor
        · intro hmem
          rcases hmem with h2 | h2
          · have hts2 := (hinv.tsMem j2 hj2).mp (hrestsub _ h2)
            have hnc : (keys g).getD j2 "" ≠ cur.1 := by
              intro hEq
              rw [hEq] at h2
              exact hcurnotrest h2
            refine ⟨?_, remK_zero_append hts2.2⟩
            intro hmem3
            rcases List.mem_append.mp hmem3 with h4 | h4
            · exact hts2.1 h4
            · rw [List.mem_singleton] at h4
              exact hnc h4
          · rcases List.mem_map.mp h2 with ⟨q, hqP, hfst⟩
            rcases hPfact q hqP with ⟨hqo, hqc, _⟩
            rcases (hpushes q).mp hqP with ⟨j3, hj3, hgd3, hedge3, hrem13, _⟩
            have hjj : j3 = j2 := getD_inj hwf.1 hj3 hj2 (by rw [hgd3, hfst])
            subst hjj
            refine ⟨?_, ?_⟩
            · intro hmem3
              rw [hgd3] at hmem3
              rcases List.mem_append.mp hmem3 with h4 | h4
              · exact hqo h4
              · rw [List.mem_singleton] at h4
                exact hqc h4
            · have hstep2 := remK_append_of_edge hwf.1 hjlt hgetD hnotout hedge3
              omega
        · rintro ⟨hnmem, hrem2⟩
          have hno : (keys g).getD j2 "" ∉ out :=
            fun h4 => hnmem (List.mem_append_left _ h4)
          have hnc : (keys g).getD j2 "" ≠ cur.1 :=
            fun h4 => hnmem (List.mem_append_right _ (by rw [h4]; simp))
          cases hEg : edgeB g j j2 with
          | true =>
            have hstep2 := remK_append_of_edge hwf.1 hjlt hgetD hnotout hEg
            have hrem1 : remK g out j2 = 1 := by omega
            right
            apply List.mem_map.mpr
            refine ⟨((keys g).getD j2 "", 0), ?_, rfl⟩
            exact (hpushes _).mpr ⟨j2, hj2, rfl, hEg, hrem1, rfl⟩
          | false =>
            have hstep2 : remK g (out ++ [cur.1]) j2 = remK g out j2 :=
              remK_append_of_not_edge hwf.1 hjlt hgetD hEg
            have hrem3 : remK g out j2 = 0 := by omega
            have hmem4 := (hinv.tsMem j2 hj2).mpr ⟨hno, hrem3⟩
            rw [hmapts] at hmem4
            rcases List.mem_append.mp hmem4 with h4 | h4
            · exact Or.inl h4
            · rw [List.mem_singleton] at h4
              exact absurd h4 hnc
      have htsDisj2 : ∀ p ∈ toSearch.dropLast ++ pushesOf (keys g) indegs
          (g.adjacency.getD j []).enum, p.1 ∉ out ++ [cur.1] := by
        intro p hp
        rcases List.mem_append.mp hp with h2 | h2
        · have hpts := hrestmem p h2
          intro hmem3
          rcases List.mem_append.mp hmem3 with h4 | h4
          · exact hinv.tsDisj p hpts h4
          · rw [List.mem_singleton] at h4
            have : p.1 ∈ toSearch.dropLast.map (fun p => p.1) :=
              List.mem_map_of_mem _ h2
            rw [h4] at this
            exact hcurnotrest this
        · rcases hPfact p h2 with ⟨hpo, hpc, _⟩
          intro hmem3
          rcases List.mem_append.mp hmem3 with h4 | h4
          · exact hpo h4
          · rw [List.mem_singleton] at h4
            exact hpc h4
      have htsSub2 : ∀ p ∈ toSearch.dropLast ++ pushesOf (keys g) indegs
          (g.adjacency.getD j []).enum, p.1 ∈ keys g := by
        intro p hp
        rcases List.mem_append.mp hp with h2 | h2
        · exact hinv.tsSub p (hrestmem p h2)
        · exact (hPfact p h2).2.2
      have hrows2 : ∀ i2, i2 < (keys g).length →
          (keys g).getD i2 "" ∉ out ++ [cur.1] →
          (processRow zeroRow (keys g) ((j : Nat) : Int)
              (g.adjacency.getD j []).enum adjC indegs
              toSearch.dropLast).1[i2]? = g.adjacency[i2]? := by
        intro i2 hi2 hnmem
        have hno : (keys g).getD i2 "" ∉ out :=
          fun h4 => hnmem (List.mem_append_left _ h4)
        have hnc : (keys g).getD i2 "" ≠ cur.1 :=
          fun h4 => hnmem (List.mem_append_right _ (by rw [h4]; simp))
        have hij : i2 ≠ j := by
          intro hEq
          subst hEq
          exact hnc hgetD
        have hcast : (i2 : Int) ≠ ((j : Nat) : Int) := by
          omega
        rw [E2 i2 hcast]
        exact hinv.rows i2 hi2 hno
      have hinv2 : KInv g
          (processRow zeroRow (keys g) ((j : Nat) : Int)
            (g.adjacency.getD j []).enum adjC indegs toSearch.dropLast).1
          (processRow zeroRow (keys g) ((j : Nat) : Int)
            (g.adjacency.getD j []).enum adjC indegs toSearch.dropLast).2.1
          (toSearch.dropLast ++ pushesOf (keys g) indegs
            (g.adjacency.getD j []).enum)
          (out ++ [cur.1]) :=
        { outNodup := houtNodup2, outSub := houtSub2, closed := hclosed2,
          noSelf := hnoSelf2, outPair := houtPair2, idkeys := E3,
          idval := hidval2, tsNodup := htsN2, tsMem := htsMem2,
          tsDisj := htsDisj2, tsSub := htsSub2, rows := hrows2,
          adjLen := E1.trans hinv.adjLen }
      have hlen2 : (out ++ [cur.1]).length = out.length + 1 := by simp
      obtain ⟨outF, adjF, indegF, hloop, hfin⟩ :=
        ih (processRow zeroRow (keys g) ((j : Nat) : Int)
            (g.adjacency.getD j []).enum adjC indegs toSearch.dropLast).1
          (processRow zeroRow (keys g) ((j : Nat) : Int)
            (g.adjacency.getD j []).enum adjC indegs toSearch.dropLast).2.1
          (toSearch.dropLast ++ pushesOf (keys g) indegs
            (g.adjacency.getD j []).enum)
          (out ++ [cur.1]) hinv2 (by omega)
      refine ⟨outF, adjF, indegF, ?_, hfin⟩
      rw [hstep, E5]
      exact hloop

theorem getD_eq_get {l : List String} {i : Nat} (h : i < l.length) :
    l.getD i "" = l.get ⟨i, h⟩ := by
  rw [List.getD_eq_getElem?_getD, List.getElem?_eq_getElem h]
  rfl

theorem KInv_init {g : JsGraph T} (hwf : WF g) :
    KInv g g.adjacency ((keys g).map (fun n => (n, (indegCount g n : Int))))
      (((keys g).map (fun n => (n, (indegCount g n : Int)))).filter
        (fun pair => pair.2 == 0)) [] := by
  have hidkeys : (((keys g).map (fun n => (n, (indegCount g n : Int)))).map
      (fun p => p.1)) = keys g := by
    rw [List.map_map]
    exact List.map_id _
  refine
    { outNodup := List.nodup_nil,
      outSub := fun k hk => absurd hk (List.not_mem_nil k),
      closed := fun j2 _ hmem => absurd hmem (List.not_mem_nil _),
      noSelf := fun j2 _ hmem => absurd hmem (List.not_mem_nil _),
      outPair := List.Pairwise.nil,
      idkeys := hidkeys,
      idval := ?_, tsNodup := ?_, tsMem := ?_, tsDisj := ?_, tsSub := ?_,
      rows := fun i _ _ => rfl, adjLen := rfl }
  · intro j2 hj2
    have hmem : (keys g).getD j2 "" ∈ keys g :=
      List.getElem?_mem (getD_eq_some hj2)
    rw [jsMapGet_tabulate (fun n => (indegCount g n : Int)) hmem,
      indegCount_eq_remK hwf hj2]
  · apply List.Nodup.sublist (List.Sublist.map _ (List.filter_sublist _))
    rw [hidkeys]
    exact hwf.1
  · intro j2 hj2
    have hmem : (keys g).getD j2 "" ∈ keys g :=
      List.getElem?_mem (getD_eq_some hj2)
    constructor
    · intro hmem2
      refine ⟨List.not_mem_nil _, ?_⟩
      rcases List.mem_map.mp hmem2 with ⟨q, hq, hfst⟩
      have hq2 : q ∈ (keys g).map (fun n => (n, (indegCount g n : Int))) :=
        List.mem_of_mem_filter hq
      have hz : (q.2 == (0 : Int)) = true := (List.mem_filter.mp hq).2
      rcases List.mem_map.mp hq2 with ⟨k0, _, hk0⟩
      have hq1 : q.1 = k0 := by rw [← hk0]
      have hq22 : q.2 = (indegCount g k0 : Int) := by rw [← hk0]
      have hk0d : k0 = (keys g).getD j2 "" := by rw [← hq1, hfst]
      have hzz : (indegCount g ((keys g).getD j2 "") : Int) = 0 := by
        rw [← hk0d, ← hq22]
        exact beq_iff_eq.mp hz
      have h3 := indegCount_eq_remK hwf hj2
      omega
    · rintro ⟨-, hrem⟩
      apply List.mem_map.mpr
      refine ⟨((keys g).getD j2 "", (indegCount g ((keys g).getD j2 "") : Int)),
        List.mem_filter.mpr ⟨List.mem_map_of_mem _ hmem, ?_⟩, rfl⟩
      have h3 := indegCount_eq_remK hwf hj2
      apply beq_iff_eq.mpr
      omega
  · intro p _
    exact List.not_mem_nil _
  · intro p hp
    have hp2 := List.mem_of_mem_filter hp
    have : p.1 ∈ ((keys g).map (fun n => (n, (indegCount g n : Int)))).map
        (fun p => p.1) := List.mem_map_of_mem _ hp2
    rw [hidkeys] at this
    exact this

theorem edge_fin_wf {g : JsGraph T} (hacy : AcyclicMatrix g) :
    WellFounded (fun x y : Fin (keys g).length => edgeB g x.val y.val = true) := by
  classical
  have hmap : ∀ a b : Fin (keys g).length,
      Relation.TransGen (fun x y : Fin (keys g).length =>
        edgeB g x.val y.val = true) a b →
      Relation.TransGen (edgeRel g) a.val b.val := by
    intro a b h
    induction h with
    | single h1 => exact Relation.TransGen.single h1
    | tail _ h2 ih => exact Relation.TransGen.tail ih h2
  haveI : IsTrans (Fin (keys g).length)
      (Relation.TransGen (fun x y => edgeB g x.val y.val = true)) :=
    ⟨fun a b c h1 h2 => h1.trans h2⟩
  haveI : IsIrrefl (Fin (keys g).length)
      (Relation.TransGen (fun x y => edgeB g x.val y.val = true)) :=
    ⟨fun x hx => hacy x.val (hmap x x hx)⟩
  have hwftg := Finite.wellFounded_of_trans_of_irrefl
    (α := Fin (keys g).length)
    (Relation.TransGen (fun x y => edgeB g x.val y.val = true))
  have hsub : Subrelation (fun x y : Fin (keys g).length => edgeB g x.val y.val = true)
      (Relation.TransGen (fun x y : Fin (keys g).length =>
        edgeB g x.val y.val = true)) := by
    intro a b h
    exact Relation.TransGen.single h
  exact Subrelation.wf hsub hwftg

theorem kahn_final_perm {g : JsGraph T} (hwf : WF g) (hacy : AcyclicMatrix g)
    {adjF : List (List Cell)} {indegF : List (String × Int)} {outF : List String}
    (hfin : KInv g adjF indegF [] outF) : outF.Perm (keys g) := by
  classical
  have hall : ∀ k ∈ keys g, k ∈ outF := by
    by_contra hnot
    push_neg at hnot
    rcases hnot with ⟨k0, hk0, hk0n⟩
    rcases jsIndexOf_spec_of_mem hk0 with ⟨i0, _, hilt, hgeti⟩
    have hSne : Set.Nonempty { x : Fin (keys g).length | (keys g).get x ∉ outF } := by
      refine ⟨⟨i0, hilt⟩, ?_⟩
      show (keys g).get ⟨i0, hilt⟩ ∉ outF
      have hd : (keys g).getD i0 "" = k0 :=
        Option.some.inj ((getD_eq_some hilt).symm.trans hgeti)
      rw [← getD_eq_get hilt, hd]
      exact hk0n
    rcases (edge_fin_wf hacy).has_min _ hSne with ⟨m, hmS, hmin⟩
    have hrem : remK g outF m.val = 0 := by
      rw [remK_eq_zero_iff]
      intro i hi he
      by_contra hni
      refine hmin ⟨i, hi⟩ ?_ he
      show (keys g).get ⟨i, hi⟩ ∉ outF
      rw [← getD_eq_get hi]
      exact hni
    have hmnot : (keys g).getD m.val "" ∉ outF := by
      rw [getD_eq_get m.isLt]
      exact hmS
    have hmem2 := (hfin.tsMem m.val m.isLt).mpr ⟨hmnot, hrem⟩
    simp at hmem2
  exact (List.perm_ext_iff_of_nodup hfin.outNodup hwf.1).mpr
    (fun a => ⟨fun h => hfin.outSub a h, fun h => hall a h⟩)

theorem kahn_final_order {g : JsGraph T} (hwf : WF g)
    {adjF : List (List Cell)} {indegF : List (String × Int)} {outF : List String}
    (hfin : KInv g adjF indegF [] outF)
    {pi pj i j2 : Nat} (hpi : pi < outF.length) (hpj : pj < outF.length)
    (hi : i < (keys g).length) (hj : j2 < (keys g).length)
    (hgi : outF.get ⟨pi, hpi⟩ = (keys g).get ⟨i, hi⟩)
    (hgj : outF.get ⟨pj, hpj⟩ = (keys g).get ⟨j2, hj⟩)
    (hedge : edgeB g i j2 = true) : pi < pj := by
  rcases Nat.lt_trichotomy pi pj with h | h | h
  · exact h
  · exfalso
    subst h
    have hij : i = j2 := getD_inj hwf.1 hi hj
      (by rw [getD_eq_get hi, getD_eq_get hj, ← hgi, ← hgj])
    subst hij
    have hmem : (keys g).getD i "" ∈ outF := by
      rw [getD_eq_get hi, ← hgi]
      exact List.get_mem _ _ _
    rw [hfin.noSelf i hi hmem] at hedge
    exact Bool.noConfusion hedge
  · exfalso
    have hp := List.pairwise_iff_getElem.mp hfin.outPair pj pi hpj hpi h
    have hxb : (keys g).getD i "" = outF.get ⟨pi, hpi⟩ := by
      rw [getD_eq_get hi, hgi]
    have hxa : (keys g).getD j2 "" = outF.get ⟨pj, hpj⟩ := by
      rw [getD_eq_get hj, hgj]
    have hfalse := hp i j2 hi hj hxb hxa
    rw [hfalse] at hedge
    exact Bool.noConfusion hedge

theorem acyclic_of_measure {g : JsGraph T} (f : Nat → Nat)
    (h : ∀ i j, edgeRel g i j → f i < f j) : AcyclicMatrix g := by
  intro i htg
  have hmono : ∀ a b, Relation.TransGen (edgeRel g) a b → f a < f b := by
    intro a b h2
    induction h2 with
    | single h1 => exact h _ _ h1
    | tail _ h3 ih => exact Nat.lt_trans ih (h _ _ h3)
  exact absurd (hmono i i htg) (Nat.lt_irrefl _)

theorem kahn_final_acyclic {g : JsGraph T} (hwf : WF g)
    {adjF : List (List Cell)} {indegF : List (String × Int)} {outF : List String}
    (hfin : KInv g adjF indegF [] outF)
    (hlen : outF.length = (keys g).length) : AcyclicMatrix g := by
  classical
  have hperm : outF.Perm (keys g) := by
    have hsp := List.Nodup.subperm hfin.outNodup (fun k hk => hfin.outSub k hk)
    exact hsp.perm_of_length_le (by omega)
  apply acyclic_of_measure (fun i => List.indexOf ((keys g).getD i "") outF)
  intro i j2 he
  have hbounds := edgeB_lt_of_WF hwf he
  have hi : i < (keys g).length := hbounds.1
  have hj : j2 < (keys g).length := hbounds.2
  have hmi : (keys g).getD i "" ∈ outF := by
    apply hperm.mem_iff.mpr
    exact List.getElem?_mem (getD_eq_some hi)
  have hmj : (keys g).getD j2 "" ∈ outF := by
    apply hperm.mem_iff.mpr
    exact List.getElem?_mem (getD_eq_some hj)
  have hpi : List.indexOf ((keys g).getD i "") outF < outF.length :=
    List.indexOf_lt_length.mpr hmi
  have hpj : List.indexOf ((keys g).getD j2 "") outF < outF.length :=
    List.indexOf_lt_length.mpr hmj
  apply kahn_final_order hwf hfin hpi hpj hi hj ?_ ?_ he
  · show outF.get ⟨List.indexOf ((keys g).getD i "") outF, hpi⟩ =
      (keys g).get ⟨i, hi⟩
    rw [← getD_eq_get hi]
    exact List.getElem_indexOf hpi
  · show outF.get ⟨List.indexOf ((keys g).getD j2 "") outF, hpj⟩ =
      (keys g).get ⟨j2, hj⟩
    rw [← getD_eq_get hj]
    exact List.getElem_indexOf hpj

theorem assoc_keys_filterMap {m : List (String × T)}
    (hn : (m.map (fun p => p.1)).Nodup) :
    (m.map (fun p => p.1)).filterMap (fun k => jsMapGet m k) =
      m.map (fun p => p.2) := by
  induction m with
  | nil => rfl
  | cons p rest ih =>
    rcases p with ⟨k0, v0⟩
    rw [List.map_cons, List.filterMap_cons, jsMapGet_cons_self rfl]
    dsimp only
    have hk0 : k0 ∉ rest.map (fun p => p.1) := by
      rw [List.map_cons] at hn
      exact (List.nodup_cons.mp hn).1
    have hcong : (rest.map (fun p => p.1)).filterMap
        (fun k => jsMapGet ((k0, v0) :: rest) k) =
        (rest.map (fun p => p.1)).filterMap (fun k => jsMapGet rest k) := by
      apply List.filterMap_congr
      intro k hk
      have hne : k0 ≠ k := by
        intro hEq
        rw [hEq] at hk0
        exact hk0 hk
      exact jsMapGet_cons_ne hne
    rw [hcong, ih (by rw [List.map_cons] at hn; exact (List.nodup_cons.mp hn).2),
      List.map_cons]

/-- Reading `isAcyclic` from a warm cache returns the negated cache bit
without touching the state (directedAcyclicGraph.ts:149-151 of the
concatenated file). -/
theorem isAcyclicF_warm {g : JsGraph T} {hc : Bool} (h : g.hasCycle = some hc)
    (fuel : Nat) : isAcyclicF g fuel = some (!hc, g) := by
  unfold isAcyclicF
  rw [h]

/-- A two-node `DirectedGraph` with the edge A to B added through the
public API with `skipUpdatingCyclicality = true`, leaving the cycle
cache cold (`undefined`). -/
def coldDG : JsGraph String :=
  okDGEdge (okInsert (okInsert (Graph.new strId) "A") "B") "A" "B" true

/-- Claim C4 (corrected): on a well-formed `DirectedGraph` whose cycle
cache is cold, `isAcyclic()` runs Kahn's algorithm to completion (any
fuel beyond the node count suffices), returns `true` exactly when the
adjacency matrix has no directed cycle, caches the boolean, and a later
call served from the warm cache returns the same answer and state.  The
claim's universal form over every reachable `DirectedGraph` is refuted
separately: a poisoned cache (claim counterexample) makes `isAcyclic()`
answer `true` on a cyclic graph, so the equivalence only holds for the
cold computation. -/
theorem isAcyclic_cold_decides_acyclicity (g : JsGraph T) (hwf : WF g)
    (hcold : g.hasCycle = none) :
    ∃ F, ∀ fuel, F ≤ fuel → ∃ b,
      isAcyclicF g fuel = some (b, { g with hasCycle := some (!b) }) ∧
      (b = true ↔ AcyclicMatrix g) ∧
      (∀ fuel2, isAcyclicF { g with hasCycle := some (!b) } fuel2 =
        some (b, { g with hasCycle := some (!b) })) := by
  refine ⟨(keys g).length + 1, ?_⟩
  intro fuel hfuel
  obtain ⟨outF, adjF, indegF, hloop, hfin⟩ :=
    kahnLoop_inv hwf false fuel g.adjacency
      ((keys g).map (fun n => (n, (indegCount g n : Int))))
      (((keys g).map (fun n => (n, (indegCount g n : Int)))).filter
        (fun pair => pair.2 == 0)) [] (KInv_init hwf)
      (by simp only [List.length_nil]; omega)
  have hklen : (keys g).length = g.nodes.length := List.length_map _ _
  refine ⟨(outF.length == g.nodes.length), ?_, ?_, ?_⟩
  · unfold isAcyclicF
    rw [hcold]
    dsimp only
    rw [hloop]
  · constructor
    · intro hb
      have hlen : outF.length = (keys g).length := by
        have h2 := beq_iff_eq.mp hb
        omega
      exact kahn_final_acyclic hwf hfin hlen
    · intro hacy
      have hlen := (kahn_final_perm hwf hacy hfin).length_eq
      apply beq_iff_eq.mpr
      omega
  · intro fuel2
    rw [isAcyclicF_warm rfl fuel2, Bool.not_not]

/-- C4 witness: the cold-cache graph A to B built with
`skipUpdatingCyclicality = true`; its hypotheses hold by evaluation. -/
theorem isAcyclic_cold_decides_acyclicity_witness :
    ∃ F, ∀ fuel, F ≤ fuel → ∃ b,
      isAcyclicF coldDG fuel = some (b, { coldDG with hasCycle := some (!b) }) ∧
      (b = true ↔ AcyclicMatrix coldDG) ∧
      (∀ fuel2, isAcyclicF { coldDG with hasCycle := some (!b) } fuel2 =
        some (b, { coldDG with hasCycle := some (!b) })) :=
  isAcyclic_cold_decides_acyclicity coldDG (by decide) rfl

/-- Claim C1 (corrected): on a well-formed graph whose adjacency matrix
is genuinely acyclic and whose topological cache is cold,
`topologicallySortedNodes()` (with fuel beyond the node count) returns
the stored values keyed by a permutation `outIds` of the key list, every
stored node appearing exactly once, and for every edge (u, v) of the
matrix the key of u sits strictly before the key of v in `outIds` — a
topological order.  The claim's appeal to the class invariant over every
publicly reachable DAG is refuted separately (claim counterexample): a
poisoned cycle cache lets a cyclic DAG through `fromDirectedGraph`, and
on it the sort silently drops nodes. -/
theorem topo_correct_on_acyclic (g : JsGraph T) (hwf : WF g)
    (hacy : AcyclicMatrix g) (hcold : g.topoCache = none) :
    ∃ F, ∀ fuel, F ≤ fuel → ∃ (vals : List T) (outIds : List String),
      topologicallySortedNodesF g fuel =
        some (vals, { g with topoCache := some vals }) ∧
      outIds.Perm (keys g) ∧
      vals = outIds.filterMap (fun k => jsMapGet g.nodes k) ∧
      vals.Perm (Graph.getNodes g) ∧
      (∀ pi pj, ∀ (hpi : pi < outIds.length) (hpj : pj < outIds.length),
        ∀ i j, ∀ (hi : i < (keys g).length) (hj : j < (keys g).length),
        outIds.get ⟨pi, hpi⟩ = (keys g).get ⟨i, hi⟩ →
        outIds.get ⟨pj, hpj⟩ = (keys g).get ⟨j, hj⟩ →
        edgeB g i j = true → pi < pj) := by
  refine ⟨(keys g).length + 1, ?_⟩
  intro fuel hfuel
  by_cases hfast : ((((keys g).map (fun n => (n, (indegCount g n : Int)))).filter
      (fun pair => pair.2 == 0)).length == g.nodes.length) = true
  · have hnoedge : ∀ i j, edgeB g i j = false := by
      intro i j
      cases hEg : edgeB g i j with
      | false => rfl
      | true =>
        exfalso
        have hb := edgeB_lt_of_WF hwf hEg
        have hlen0 : ((((keys g).map (fun n => (n, (indegCount g n : Int)))).filter
            (fun pair => pair.2 == 0)).length =
            (((keys g).map (fun n => (n, (indegCount g n : Int))))).length) := by
          have h2 := beq_iff_eq.mp hfast
          have h3 : (((keys g).map (fun n => (n, (indegCount g n : Int))))).length
              = g.nodes.length := by
            rw [List.length_map]
            exact List.length_map _ _
          omega
        have hall := List.filter_length_eq_length.mp hlen0
        have hmem : ((keys g).getD j "", (indegCount g ((keys g).getD j "") : Int)) ∈
            ((keys g).map (fun n => (n, (indegCount g n : Int)))) :=
          List.mem_map_of_mem _ (List.getElem?_mem (getD_eq_some hb.2))
        have hz := hall _ hmem
        have hzz : (indegCount g ((keys g).getD j "") : Int) = 0 := beq_iff_eq.mp hz
        have h4 := indegCount_eq_remK hwf hb.2
        have hrem : remK g [] j = 0 := by omega
        have h5 := remK_eq_zero_iff.mp hrem i hb.1 hEg
        simp at h5
    refine ⟨g.nodes.map (fun p => p.2), keys g, ?_, List.Perm.refl _, ?_,
      by unfold Graph.getNodes; exact List.Perm.refl _, ?_⟩
    · unfold topologicallySortedNodesF
      rw [hcold]
      dsimp only
      rw [if_pos hfast]
    · exact (assoc_keys_filterMap hwf.1).symm
    · intro pi pj hpi hpj i j hi hj hgi hgj hedge
      rw [hnoedge i j] at hedge
      exact Bool.noConfusion hedge
  · obtain ⟨outF, adjF, indegF, hloop, hfin⟩ :=
      kahnLoop_inv hwf true fuel g.adjacency
        ((keys g).map (fun n => (n, (indegCount g n : Int))))
        (((keys g).map (fun n => (n, (indegCount g n : Int)))).filter
          (fun pair => pair.2 == 0)) [] (KInv_init hwf)
        (by simp only [List.length_nil]; omega)
    have hperm := kahn_final_perm hwf hacy hfin
    refine ⟨outF.filterMap (fun k => jsMapGet g.nodes k), outF, ?_, hperm, rfl,
      ?_, ?_⟩
    · unfold topologicallySortedNodesF
      rw [hcold]
      dsimp only
      rw [if_neg hfast, hloop]
    · have h2 := List.Perm.filterMap (fun k => jsMapGet g.nodes k) hperm
      have hkeq : keys g = g.nodes.map (fun p => p.1) := rfl
      rw [hkeq] at h2
      rw [assoc_keys_filterMap (hkeq ▸ hwf.1)] at h2
      unfold Graph.getNodes
      exact h2
    · intro pi pj hpi hpj i j hi hj hgi hgj hedge
      exact kahn_final_order hwf hfin hpi hpj hi hj hgi hgj hedge

/-- C1 witness: the A, B, C chain DAG of the specification scenario; its
well-formedness and cold cache hold by evaluation, and its matrix
acyclicality follows from the edges running strictly upward in insertion
order. -/
theorem topo_correct_on_acyclic_witness :
    ∃ F, ∀ fuel, F ≤ fuel → ∃ (vals : List String) (outIds : List String),
      topologicallySortedNodesF chainDAG fuel =
        some (vals, { chainDAG with topoCache := some vals }) ∧
      outIds.Perm (keys chainDAG) ∧
      vals = outIds.filterMap (fun k => jsMapGet chainDAG.nodes k) ∧
      vals.Perm (Graph.getNodes chainDAG) ∧
      (∀ pi pj, ∀ (hpi : pi < outIds.length) (hpj : pj < outIds.length),
        ∀ i j, ∀ (hi : i < (keys chainDAG).length) (hj : j < (keys chainDAG).length),
        outIds.get ⟨pi, hpi⟩ = (keys chainDAG).get ⟨i, hi⟩ →
        outIds.get ⟨pj, hpj⟩ = (keys chainDAG).get ⟨j, hj⟩ →
        edgeB chainDAG i j = true → pi < pj) :=
  topo_correct_on_acyclic chainDAG (by decide)
    (acyclic_of_bounded_increasing (n := 3) (by decide) (by decide) (by decide))
    rfl

end TsGraph
